import Mathlib

/-!
# Verification of the galaxy_graphrag community-detection and retrieval engine

A shallow embedding, in Lean 4, of the graph-projection / community-detection
pipeline and the retrieval engine of the `galaxy_graphrag` repository,
together with proofs about the embedded definitions.

Conventions of the embedding:
- The in-memory `networkx.Graph` objects built by the projectors are modelled
  by `NXGraph`: a node list plus an edge list carrying the `weight` and
  `type` attributes.  `networkx` stores at most one edge per unordered pair;
  `add_edge` on an existing pair overwrites its attributes, and
  `G[u][v]['weight'] += w` increments the stored weight.
- Machine floats of the source are modelled as rationals (`ℚ`).
- External collaborators are parameters: `sklearn.metrics.pairwise.cosine_similarity`
  becomes an abstract pairwise function `sim : Embedding → Embedding → ℚ`
  applied to the row vectors of the embedding matrix, and
  `leidenalg.find_partition` becomes an abstract partition oracle
  `part : NXGraph String → ℚ → List (String × Nat)` mapping node keys to
  cluster indices.
- The Neo4j store is modelled by `Store`: the data read by the projectors
  (embeddings and aggregated relationship rows) plus the node sets and
  scalar properties written by the detectors.  Cypher statements of the
  source are modelled by their effect on `Store`.
- Python exceptions (`TypeError` from an unexpected keyword argument,
  `ValueError` from tuple unpacking, `IndexError` from list indexing) are
  modelled with `Except PyErr`.
-/

namespace GalaxyGraphRAG

/-- A vector fetched from a node's `embedding` property. -/
abbrev Embedding := List ℚ

/-- One edge of an in-memory `networkx` graph: the two endpoints plus the
`weight` and `type` attributes set by the projectors (`type` is absent on the
edges of the universal graph, hence an `Option`). -/
structure EdgeRec (α : Type) where
  ep1 : α
  ep2 : α
  weight : ℚ
  etype : Option String
deriving DecidableEq, Repr

/-- Does edge `e` connect the unordered pair `{u, v}`?  (`networkx` graphs
are undirected.) -/
def sameEnds {α : Type} [DecidableEq α] (e : EdgeRec α) (u v : α) : Bool :=
  (decide (e.ep1 = u) && decide (e.ep2 = v)) || (decide (e.ep1 = v) && decide (e.ep2 = u))

/-- An in-memory `networkx.Graph`. -/
structure NXGraph (α : Type) where
  nodes : List α
  edges : List (EdgeRec α)
deriving DecidableEq, Repr

namespace NXGraph

variable {α : Type} [DecidableEq α]

/-- `networkx` `G.add_node(v)` (also performed implicitly by `add_edge`). -/
def addNode (G : NXGraph α) (v : α) : NXGraph α :=
  if v ∈ G.nodes then G else ⟨G.nodes ++ [v], G.edges⟩

/-- `networkx` `G.has_edge(u, v)`. -/
def hasEdge (G : NXGraph α) (u v : α) : Bool :=
  G.edges.any (fun e => sameEnds e u v)

/-- `networkx` `G.add_edge(u, v, weight=w, type=t)`: overwrites the stored
attributes when the unordered pair already has an edge, otherwise appends the
edge, first adding any missing endpoint as a node. -/
def addEdge (G : NXGraph α) (u v : α) (w : ℚ) (t : Option String) : NXGraph α :=
  if G.hasEdge u v then
    ⟨G.nodes, G.edges.map (fun e => if sameEnds e u v then { e with weight := w, etype := t } else e)⟩
  else
    ⟨((G.addNode u).addNode v).nodes, G.edges ++ [⟨u, v, w, t⟩]⟩

/-- `networkx` `G[u][v]['weight'] += w`. -/
def incWeight (G : NXGraph α) (u v : α) (w : ℚ) : NXGraph α :=
  ⟨G.nodes, G.edges.map (fun e => if sameEnds e u v then { e with weight := e.weight + w } else e)⟩

/-- The stored `weight` attribute of the edge on `{u, v}`, when present. -/
def weight? (G : NXGraph α) (u v : α) : Option ℚ :=
  (G.edges.find? (fun e => sameEnds e u v)).map EdgeRec.weight

/-- `networkx` `G.subgraph(keys)`: the induced subgraph on a key set. -/
def subgraph (G : NXGraph α) (ks : List α) : NXGraph α :=
  ⟨G.nodes.filter (fun v => decide (v ∈ ks)),
   G.edges.filter (fun e => decide (e.ep1 ∈ ks) && decide (e.ep2 ∈ ks))⟩

/-- Two edge records cover the same unordered pair of endpoints. -/
def SamePair (e₁ e₂ : EdgeRec α) : Prop :=
  (e₁.ep1 = e₂.ep1 ∧ e₁.ep2 = e₂.ep2) ∨ (e₁.ep1 = e₂.ep2 ∧ e₁.ep2 = e₂.ep1)

/-- The `networkx` representation invariant: at most one stored edge per
unordered pair of endpoints. -/
def Good (G : NXGraph α) : Prop :=
  G.edges.Pairwise (fun e₁ e₂ => ¬ SamePair e₁ e₂)

end NXGraph

/-! ## Similarity Graph Projector (`src/community_detection/graph_projector.py`) -/

/-- The dimension check hard-coded in both projectors (`expected_dim = 384`). -/
def expectedDim : Nat := 384

/-- One row of the aggregated relationship queries
(`fetch_workflow_cooccurrences` / `fetch_io_connections`):
`(source_id, target_id, weight)`. -/
structure EdgeRow (α : Type) where
  source : α
  target : α
  weight : ℚ
deriving DecidableEq, Repr

/-- The dimension filter shared by `build_weighted_graph` and
`build_universal_graph`: keep the fetched embeddings whose length equals 384,
skipping (and logging) the rest. -/
def validEmbeddings {α : Type} (embs : List (α × Embedding)) : List (α × Embedding) :=
  embs.filter (fun p => decide (p.2.length = expectedDim))

/-- All index pairs `(r, c)` of an `n × n` similarity matrix, in the row-major
order in which `np.where(sim_matrix > threshold)` yields them; here every
index is paired with the underlying `(id, vector)` entry. -/
def enumPairs {β : Type} (l : List β) : List ((Nat × β) × (Nat × β)) :=
  l.enum.flatMap (fun a => l.enum.map (fun b => (a, b)))

/-- The semantic pass common to both projectors: for every matrix position
`(r, c)` with `sim_matrix[r, c] > threshold` and `r < c` (upper triangle),
`G.add_edge(ids[r], ids[c], weight=sim_matrix[r, c], type=ty)`.
`sim` abstracts `sklearn.metrics.pairwise.cosine_similarity`, applied to the
two row vectors; `ty` is `some "semantic"` in the similarity projector and
absent in the universal projector. -/
def semStep {α : Type} [DecidableEq α] (sim : Embedding → Embedding → ℚ)
    (threshold : ℚ) (ty : Option String)
    (g : NXGraph α) (q : (Nat × (α × Embedding)) × (Nat × (α × Embedding))) : NXGraph α :=
  if threshold < sim q.1.2.2 q.2.2.2 ∧ q.1.1 < q.2.1 then
    g.addEdge q.1.2.1 q.2.2.1 (sim q.1.2.2 q.2.2.2) ty
  else g

/-- The semantic pass proper: fold `semStep` over all matrix positions. -/
def semanticPass {α : Type} [DecidableEq α] (sim : Embedding → Embedding → ℚ)
    (threshold : ℚ) (ty : Option String) (valid : List (α × Embedding))
    (G : NXGraph α) : NXGraph α :=
  (enumPairs valid).foldl (semStep sim threshold ty) G

/-- One iteration of the two merge loops of `build_weighted_graph`: given a
row `(u, v, w)`, add `w * factor` to an existing edge's weight, or create the
edge with weight `w * factor` and the given `type` attribute. -/
def applyRow {α : Type} [DecidableEq α] (factor : ℚ) (ty : Option String)
    (g : NXGraph α) (row : EdgeRow α) : NXGraph α :=
  if g.hasEdge row.source row.target then
    g.incWeight row.source row.target (row.weight * factor)
  else
    g.addEdge row.source row.target (row.weight * factor) ty

/-- The state of `build_weighted_graph` right after the semantic-similarity
pass: nodes are the tools with valid embeddings, edges the above-threshold
upper-triangle pairs. -/
def semanticStage {α : Type} [DecidableEq α] (sim : Embedding → Embedding → ℚ)
    (embs : List (α × Embedding)) : NXGraph α :=
  semanticPass sim (7/10) (some "semantic") (validEmbeddings embs)
    ⟨(validEmbeddings embs).map Prod.fst, []⟩

/-- `GraphProjector.build_weighted_graph`.  Its Python signature is
`def build_weighted_graph(self):` — it accepts no keyword parameter. -/
def buildWeightedGraphKwParams : List String := []

/-- `GraphProjector.build_weighted_graph`: dimension-filter the fetched tool
embeddings (`embs`); if no valid embedding remains, return the empty graph at
once; otherwise add all valid tool ids as nodes, run the semantic pass at
threshold 0.7, then merge the workflow co-occurrence rows at factor 1.0 and
the input/output compatibility rows at factor 0.5. -/
def build_weighted_graph {α : Type} [DecidableEq α] (sim : Embedding → Embedding → ℚ)
    (embs : List (α × Embedding)) (wfRows ioRows : List (EdgeRow α)) : NXGraph α :=
  if (validEmbeddings embs).map Prod.fst = [] then ⟨[], []⟩
  else
    let G₁ := semanticStage sim embs
    let G₂ := wfRows.foldl (applyRow 1 (some "workflow")) G₁
    ioRows.foldl (applyRow (1/2) (some "io")) G₂

/-! ## Universal Graph Projector (`src/community_detection/universal_projector.py`) -/

/-- The type-prefixed node key of a tool in the universal graph. -/
def toolKey (id : String) : String := "Tool:" ++ id

/-- The type-prefixed node key of a workflow in the universal graph. -/
def workflowKey (id : String) : String := "Workflow:" ++ id

/-- `UniversalGraphProjector.fetch_all_embeddings`: tools then workflows,
each keyed by its prefixed node key, together with the `node_types` map. -/
def fetch_all_embeddings (toolEmbs wfEmbs : List (String × Embedding)) :
    List (String × Embedding) × List (String × String) :=
  (toolEmbs.map (fun p => (toolKey p.1, p.2)) ++ wfEmbs.map (fun p => (workflowKey p.1, p.2)),
   toolEmbs.map (fun p => (toolKey p.1, "Tool")) ++ wfEmbs.map (fun p => (workflowKey p.1, "Workflow")))

/-- `UniversalGraphProjector.build_universal_graph` (called by the detector
with its default `similarity_threshold=0.7`): dimension-filter the combined
embeddings, return the empty graph when nothing is valid, otherwise add the
valid keys as nodes and run the same semantic edge rule, with no `type` edge
attribute and no co-occurrence or I/O pass. -/
def build_universal_graph (sim : Embedding → Embedding → ℚ) (threshold : ℚ)
    (toolEmbs wfEmbs : List (String × Embedding)) :
    NXGraph String × List (String × String) :=
  let fetched := fetch_all_embeddings toolEmbs wfEmbs
  let valid := validEmbeddings fetched.1
  if valid = [] then (⟨[], []⟩, fetched.2)
  else (semanticPass sim threshold none valid ⟨valid.map Prod.fst, []⟩, fetched.2)

/-! ## Python string primitives used by the detector -/

/-- The decimal digit character for `d < 10`. -/
def digitChar (d : Nat) : Char := Char.ofNat (48 + d)

/-- The decimal digits of `n`, least-significant first (empty for 0). -/
def natDigitsRev : Nat → List Char
  | 0 => []
  | n + 1 => digitChar ((n + 1) % 10) :: natDigitsRev ((n + 1) / 10)
decreasing_by omega

/-- Python `str(n)` for a non-negative `int`: plain decimal rendering. -/
def natRepr (n : Nat) : String :=
  if n = 0 then "0" else ⟨(natDigitsRev n).reverse⟩

/-- Python `s.split(sep, 1)` on a character list: `some (before, after)` at
the first occurrence of `sep`, `none` when `sep` does not occur. -/
def splitFirst (sep : Char) : List Char → Option (List Char × List Char)
  | [] => none
  | c :: cs =>
    if c = sep then some ([], cs)
    else (splitFirst sep cs).map (fun p => (c :: p.1, p.2))

/-- Python `s.split(sep)` (no limit) on a character list. -/
def pySplitAll (sep : Char) : List Char → List (List Char)
  | [] => [[]]
  | c :: cs =>
    let r := pySplitAll sep cs
    if c = sep then [] :: r
    else
      match r with
      | [] => [[c]]
      | h :: t => (c :: h) :: t

/-- `key.split(":")[1]` as used at line 117 of `hierarchical_leiden.py`:
`none` models the `IndexError` raised when the key holds no colon. -/
def splitColonIdx1 (s : String) : Option String :=
  ((pySplitAll ':' s.data).get? 1).map (fun l => ⟨l⟩)

/-! ## Hierarchical Community Detector (`src/community_detection/hierarchical_leiden.py`) -/

/-- The Python exceptions the embedded pipeline can raise. -/
inductive PyErr where
  | typeError
  | valueError
  | indexError
deriving DecidableEq, Repr

/-- The f-string `f"{comm_id}_{tag}_{sub_id}"` building a sub-community id,
with `tag` being `"T"` on the tool path and `"W"` on the workflow path. -/
def mkSubId (commId : Nat) (tag : String) (localIdx : Nat) : String :=
  natRepr commId ++ "_" ++ tag ++ "_" ++ natRepr localIdx

/-- One entry of the `all_updates` list written by the hierarchical run:
the Python dict `{"type": ..., "id": ..., "comm_id": ..., "sub_id": ...}`. -/
structure HierUpdate where
  utype : String
  id : String
  commId : Nat
  subId : String
deriving DecidableEq, Repr

/-- The Neo4j store, restricted to what the pipeline reads and writes:
the fetched embeddings and aggregated relationship rows, the full node id
sets, the `Community`/`SubCommunity`/`Topic` node sets, and the
community-membership scalar properties on `Tool`/`Workflow` nodes
(association lists keyed by node id). -/
structure Store where
  toolIds : List String
  wfIds : List String
  toolEmbs : List (String × Embedding)
  wfEmbs : List (String × Embedding)
  wfRows : List (EdgeRow String)
  ioRows : List (EdgeRow String)
  communityNodes : List Nat
  subCommunityNodes : List String
  topicNodes : List String
  toolCommunityId : List (String × Nat)
  toolSubCommunityId : List (String × String)
  toolTopicId : List (String × String)
  wfCommunityId : List (String × Nat)
  wfSubCommunityId : List (String × String)
  wfTopicId : List (String × String)
deriving DecidableEq, Repr

/-- The two cleanup statements at the start of `run_hierarchical_detection`:
`DETACH DELETE` every `Community`/`SubCommunity`/`Topic` node, and `REMOVE`
the `communityId`/`subCommunityId`/`topicId` properties from every
`Tool`/`Workflow` node. -/
def cleanupStore (s : Store) : Store :=
  { s with
    communityNodes := [], subCommunityNodes := [], topicNodes := [],
    toolCommunityId := [], toolSubCommunityId := [], toolTopicId := [],
    wfCommunityId := [], wfSubCommunityId := [], wfTopicId := [] }

/-- `HierarchicalLeiden._run_leiden_on_graph`: empty graph yields the empty
partition; otherwise defer to the (external, stochastic) `leidenalg`
partitioner, abstracted as the oracle `part`. -/
def runLeidenOnGraph (part : NXGraph String → ℚ → List (String × Nat))
    (G : NXGraph String) (resolution : ℚ) : List (String × Nat) :=
  if G.nodes = [] then [] else part G resolution

/-- The Level-1 grouping loop: for each partitioned node key, create the
community bucket if absent, then split the key as `type_prefix, real_id =
node_key.split(":", 1)` (a key without `:` raises `ValueError`) and append
the real id to the bucket's tool or workflow list according to the prefix
(other prefixes are dropped). -/
def groupCommunities (partition : List (String × Nat)) :
    Except PyErr (List (Nat × List String × List String)) :=
  partition.foldlM
    (fun acc p =>
      let acc' := if acc.any (fun q => decide (q.1 = p.2)) then acc else acc ++ [(p.2, [], [])]
      match splitFirst ':' p.1.data with
      | none => .error .valueError
      | some pr =>
        if (⟨pr.1⟩ : String) = "Tool" then
          .ok (acc'.map (fun q => if q.1 = p.2 then (q.1, q.2.1 ++ [(⟨pr.2⟩ : String)], q.2.2) else q))
        else if (⟨pr.1⟩ : String) = "Workflow" then
          .ok (acc'.map (fun q => if q.1 = p.2 then (q.1, q.2.1, q.2.2 ++ [(⟨pr.2⟩ : String)]) else q))
        else .ok acc')
    []

/-- One iteration of the workflow sub-community loop: recover the workflow id
via `key.split(":")[1]` (raising `IndexError` on a colon-free key) and append
the update row. -/
def wfStep (commId : Nat) (acc : List HierUpdate) (p : String × Nat) :
    Except PyErr (List HierUpdate) :=
  match splitColonIdx1 p.1 with
  | some wid => Except.ok (acc ++ [HierUpdate.mk "Workflow" wid commId (mkSubId commId "W" p.2)])
  | none => Except.error PyErr.indexError

/-- The Python call `self.tool_projector.build_weighted_graph(filter_tool_ids=...)`
at line 97 of `hierarchical_leiden.py`.  Python raises `TypeError` whenever a
keyword argument is not among the callee's parameters
(`buildWeightedGraphKwParams`). -/
def callBuildWeightedGraph (sim : Embedding → Embedding → ℚ)
    (embs : List (String × Embedding)) (wfRows ioRows : List (EdgeRow String))
    (kwargs : List String) : Except PyErr (NXGraph String) :=
  if kwargs.all (fun k => decide (k ∈ buildWeightedGraphKwParams)) then
    .ok (build_weighted_graph sim embs wfRows ioRows)
  else .error .typeError

/-- The Level-2 body for one Level-1 community `(comm_id, tools, workflows)`:
when the community has tool members, call the similarity projector with the
`filter_tool_ids` keyword and partition the result at resolution 1.2, tagging
each tool with sub-id `f"{comm_id}_T_{cluster}"`; when it has workflow
members, partition the induced subgraph of the universal graph on the
workflow keys at resolution 1.0, tagging each workflow with
`f"{comm_id}_W_{cluster}"` (the workflow id is recovered by
`key.split(":")[1]`). -/
def level2ForCommunity (sim : Embedding → Embedding → ℚ)
    (part : NXGraph String → ℚ → List (String × Nat)) (s : Store)
    (univ : NXGraph String) (entry : Nat × List String × List String) :
    Except PyErr (List HierUpdate) :=
  match (if entry.2.1 ≠ [] then
      match callBuildWeightedGraph sim s.toolEmbs s.wfRows s.ioRows ["filter_tool_ids"] with
      | Except.error e => Except.error e
      | Except.ok toolGraph =>
        Except.ok ((runLeidenOnGraph part toolGraph (12/10)).map
          (fun p => HierUpdate.mk "Tool" p.1 entry.1 (mkSubId entry.1 "T" p.2)))
    else Except.ok [] : Except PyErr (List HierUpdate)) with
  | Except.error e => Except.error e
  | Except.ok toolUpdates =>
    match (if entry.2.2 ≠ [] then
        (runLeidenOnGraph part (univ.subgraph (entry.2.2.map workflowKey)) 1).foldlM
          (wfStep entry.1) []
      else Except.ok [] : Except PyErr (List HierUpdate)) with
    | Except.error e => Except.error e
    | Except.ok wfUpdates => Except.ok (toolUpdates ++ wfUpdates)

/-- The full Level-1 + Level-2 computation of one hierarchical run, producing
the `all_updates` list: build the universal graph from the (cleaned) store,
partition it at resolution 1.0, group the nodes by community, then run the
Level-2 body over every community in order. -/
def hierarchicalUpdates (sim : Embedding → Embedding → ℚ)
    (part : NXGraph String → ℚ → List (String × Nat)) (s : Store) :
    Except PyErr (List HierUpdate) :=
  let univ := (build_universal_graph sim (7/10) s.toolEmbs s.wfEmbs).1
  match groupCommunities (runLeidenOnGraph part univ 1) with
  | .error e => .error e
  | .ok comms =>
    comms.foldlM
      (fun acc entry => (level2ForCommunity sim part s univ entry).map (acc ++ ·)) []

/-- Cypher `SET` on a scalar property of a matched node: update the entry in
place when the key is present, append it otherwise. -/
def setAssoc {κ β : Type} [DecidableEq κ] (l : List (κ × β)) (k : κ) (v : β) : List (κ × β) :=
  if l.any (fun p => decide (p.1 = k)) then l.map (fun p => if p.1 = k then (k, v) else p)
  else l ++ [(k, v)]

/-- Cypher `MERGE (n {id: k})`: create the node only when absent. -/
def mergeNode {κ : Type} [DecidableEq κ] (l : List κ) (k : κ) : List κ :=
  if k ∈ l then l else l ++ [k]

/-- One row of the tool persistence batch (`query_tool`): `MATCH` the tool by
id (a missing tool matches nothing and the row is a no-op), `SET` its
`communityId` and `subCommunityId`, and `MERGE` the `Community` and
`SubCommunity` nodes. -/
def applyToolUpdate (s : Store) (u : HierUpdate) : Store :=
  if u.id ∈ s.toolIds then
    { s with
      toolCommunityId := setAssoc s.toolCommunityId u.id u.commId,
      toolSubCommunityId := setAssoc s.toolSubCommunityId u.id u.subId,
      communityNodes := mergeNode s.communityNodes u.commId,
      subCommunityNodes := mergeNode s.subCommunityNodes u.subId }
  else s

/-- One row of the workflow persistence batch (`query_wf`). -/
def applyWfUpdate (s : Store) (u : HierUpdate) : Store :=
  if u.id ∈ s.wfIds then
    { s with
      wfCommunityId := setAssoc s.wfCommunityId u.id u.commId,
      wfSubCommunityId := setAssoc s.wfSubCommunityId u.id u.subId,
      communityNodes := mergeNode s.communityNodes u.commId,
      subCommunityNodes := mergeNode s.subCommunityNodes u.subId }
  else s

/-- The persistence step of the run: split `all_updates` into the tool batch
and the workflow batch and apply them in that order. -/
def persistUpdates (s : Store) (updates : List HierUpdate) : Store :=
  let toolsBatch := updates.filter (fun u => decide (u.utype = "Tool"))
  let wfBatch := updates.filter (fun u => decide (u.utype = "Workflow"))
  wfBatch.foldl applyWfUpdate (toolsBatch.foldl applyToolUpdate s)

/-- `HierarchicalLeiden.run_hierarchical_detection`: clean up prior
community state, compute the two-level partition, persist the updates.  An
uncaught Python exception aborts the run, leaving the store as the cleanup
left it (`.error` carries the exception and the abandoned store state). -/
def run_hierarchical_detection (sim : Embedding → Embedding → ℚ)
    (part : NXGraph String → ℚ → List (String × Nat)) (s₀ : Store) :
    Except (PyErr × Store) Store :=
  let s := cleanupStore s₀
  match hierarchicalUpdates sim part s with
  | .error e => .error (e, s)
  | .ok updates => .ok (persistUpdates s updates)

/-- The value of a least-significant-first digit list (specification inverse
of `natDigitsRev`). -/
def digitsRevVal : List Char → Nat
  | [] => 0
  | c :: cs => (c.toNat - 48) + 10 * digitsRevVal cs

/-- The tag letter encoded into a sub-community id for each member type. -/
def typeTag (t : String) : String := if t = "Tool" then "T" else "W"

/-- An update row is well-formed: its type tag is one of the two batch types
and its sub-id is built by the source's f-string from its own community id,
its type tag and some local cluster index. -/
def UpdShape (u : HierUpdate) : Prop :=
  (u.utype = "Tool" ∨ u.utype = "Workflow")
    ∧ ∃ i, u.subId = mkSubId u.commId (typeTag u.utype) i

/-- No `Community`/`SubCommunity`/`Topic` node and no community-membership
scalar property is present. -/
def membershipClean (s : Store) : Prop :=
  s.communityNodes = [] ∧ s.subCommunityNodes = [] ∧ s.topicNodes = []
    ∧ s.toolCommunityId = [] ∧ s.toolSubCommunityId = [] ∧ s.toolTopicId = []
    ∧ s.wfCommunityId = [] ∧ s.wfSubCommunityId = [] ∧ s.wfTopicId = []

/-- Every community node, sub-community node and membership property of the
store originates in the given update batch of the current run. -/
def membershipsFromUpdates (upd : List HierUpdate) (s : Store) : Prop :=
  (∀ p ∈ s.toolCommunityId, ∃ u ∈ upd, u.utype = "Tool" ∧ p.1 = u.id ∧ p.2 = u.commId)
    ∧ (∀ p ∈ s.toolSubCommunityId, ∃ u ∈ upd, u.utype = "Tool" ∧ p.1 = u.id ∧ p.2 = u.subId)
    ∧ (∀ p ∈ s.wfCommunityId, ∃ u ∈ upd, u.utype = "Workflow" ∧ p.1 = u.id ∧ p.2 = u.commId)
    ∧ (∀ p ∈ s.wfSubCommunityId, ∃ u ∈ upd, u.utype = "Workflow" ∧ p.1 = u.id ∧ p.2 = u.subId)
    ∧ (∀ c ∈ s.communityNodes, ∃ u ∈ upd, c = u.commId)
    ∧ (∀ i ∈ s.subCommunityNodes, ∃ u ∈ upd, i = u.subId)
    ∧ s.topicNodes = [] ∧ s.toolTopicId = [] ∧ s.wfTopicId = []

/-! ## Flat single-level detector (`src/community_detection/leiden.py`) -/

/-- One row of the `run_leiden` batch update (called by `main.py` with its
default `resolution=1.0`): `MATCH (t:Tool {id: row.tool_id}) SET
t.communityId = row.community_id` — only the `communityId` property of a
matched `Tool` node is written. -/
def leidenStep (st : Store) (p : String × Nat) : Store :=
  if p.1 ∈ st.toolIds then { st with toolCommunityId := setAssoc st.toolCommunityId p.1 p.2 }
  else st

/-- `LeidenDetector.run_leiden` proper: build the graph, stop on an empty
graph, otherwise partition and batch-update `communityId` on `Tool` nodes. -/
def run_leiden (sim : Embedding → Embedding → ℚ)
    (part : NXGraph String → ℚ → List (String × Nat)) (s : Store) : Store :=
  let g := build_weighted_graph sim s.toolEmbs s.wfRows s.ioRows
  if g.nodes = [] then s
  else (part g 1).foldl leidenStep s

/-- Step 2 of `main.py build_pipeline` (`--build`): it constructs a
`LeidenDetector` and invokes the flat `run_leiden`, not the hierarchical
detector. -/
def buildPipelineCommunityStage (sim : Embedding → Embedding → ℚ)
    (part : NXGraph String → ℚ → List (String × Nat)) (s : Store) : Store :=
  run_leiden sim part s

/-! ## Retrieval Engine (`src/retrieval/search.py`) -/

/-- A row returned by the `db.index.vector.queryNodes` vector search. -/
structure ToolHit where
  id : String
  name : String
  description : String
  score : ℚ
deriving DecidableEq, Repr

/-- The one-hop context row of `LocalSearch` (accepted formats, produced
formats, up to three containing workflows). -/
structure ToolContext where
  inputs : List String
  outputs : List String
  workflows : List String
deriving DecidableEq, Repr

/-- A community summary row fetched by `GlobalSearch`
(`c.id`, `c.name`, `c.summary`). -/
structure CommunityRow where
  id : Nat
  name : String
  summary : String
deriving DecidableEq, Repr

/-- The community listing `f"ID {c['id']}: {c['name']} - {c['summary']}"`
joined with newlines. -/
def communityText (cs : List CommunityRow) : String :=
  String.intercalate "\n" (cs.map (fun c => "ID " ++ natRepr c.id ++ ": " ++ c.name ++ " - " ++ c.summary))

/-- The arbitration prompt of `GlobalSearch.search` (the f-string with the
user query and all community summaries interpolated). -/
def globalPrompt (query : String) (cs : List CommunityRow) : String :=
  "You are an intelligent assistant for a Galaxy bioinformatics graph.\n\n"
    ++ "User Query: \"" ++ query ++ "\"\n\n"
    ++ "Available Communities:\n" ++ communityText cs ++ "\n\n"
    ++ "1. Identify the single most relevant community for this query.\n"
    ++ "2. Explain why you chose it.\n"
    ++ "3. Return the Community ID.\n\n"
    ++ "Format:\nCommunity_ID: <id>\nReasoning: <text>"

/-- `GlobalSearch.search`: fetch all community summary rows; when none
exist, return the explanatory string; otherwise hand the prompt to the
generative collaborator (`llm` abstracts `model.generate_content(...).text`). -/
def global_search (llm : String → String) (communities : List CommunityRow)
    (query : String) : String :=
  if communities = [] then "No communities found in the graph."
  else llm (globalPrompt query communities)

/-- `LocalSearch.search` (default `top_k=3`): return `[]` at once when the
query embedding is empty (the embedding collaborator's failure value); run
the vector search (`vectorIndex` abstracts the `tool_embeddings` index
call); for each hit fetch the one-hop context row, whose absence —
`execute_query(...)[0]` on an empty result — raises `IndexError`. -/
def local_search (vectorIndex : Embedding → Nat → List ToolHit)
    (ctx : String → Option ToolContext) (queryEmbedding : Embedding)
    (topK : Nat) : Except PyErr (List (ToolHit × ToolContext)) :=
  if queryEmbedding = [] then .ok []
  else
    (vectorIndex queryEmbedding topK).foldlM
      (fun acc tool =>
        match ctx tool.id with
        | some c => .ok (acc ++ [(tool, c)])
        | none => .error PyErr.indexError)
      []

/-- Cypher `CONTAINS`: substring test. -/
def strContains (hay needle : String) : Bool :=
  decide (needle.data <:+: hay.data)

/-- A result row of `HybridSearch.search`: `(name, description, score)`. -/
structure HybridRow where
  name : String
  description : String
  score : ℚ
deriving DecidableEq, Repr

/-- `HybridSearch.search` (default `top_k=5`): run the vector search; with a
(Python-truthy, i.e. non-empty) `input_format`, the appended
`MATCH (node)-[:ACCEPTS_INPUT]->(f:FileFormat) WHERE f.name CONTAINS fmt`
pattern keeps one result row per accepted format of the hit whose name
contains the filter — a hit with no such format is dropped entirely.
`accepts` lists the `(tool id, format name)` pairs of the
`ACCEPTS_INPUT` relationships in the store. -/
def hybrid_search (vectorIndex : Embedding → Nat → List ToolHit)
    (accepts : List (String × String)) (queryEmbedding : Embedding)
    (inputFormat : Option String) (topK : Nat) : List HybridRow :=
  let hits := vectorIndex queryEmbedding topK
  let unfiltered := hits.map (fun h => HybridRow.mk h.name h.description h.score)
  match inputFormat with
  | none => unfiltered
  | some fmt =>
    if fmt = "" then unfiltered
    else
      hits.flatMap (fun h =>
        (accepts.filter (fun a => decide (a.1 = h.id) && strContains a.2 fmt)).map
          (fun _ => HybridRow.mk h.name h.description h.score))

/-- Does row `r` provide evidence for the unordered pair `{u, v}`? -/
def rowMatches {α : Type} [DecidableEq α] (u v : α) (r : EdgeRow α) : Bool :=
  (decide (r.source = u) && decide (r.target = v)) ||
  (decide (r.source = v) && decide (r.target = u))

/-- Total evidence weight the rows contribute to the unordered pair `{u, v}`. -/
def rowSum {α : Type} [DecidableEq α] (rows : List (EdgeRow α)) (u v : α) : ℚ :=
  ((rows.filter (rowMatches u v)).map EdgeRow.weight).sum

/-- `{s, t}` and `{u, v}` are the same unordered pair. -/
def PairEq {α : Type} (u v s t : α) : Prop :=
  (s = u ∧ t = v) ∨ (s = v ∧ t = u)

/-- Row `r` names entity `x` as one of its endpoints. -/
def rowMentions {α : Type} (x : α) (r : EdgeRow α) : Prop :=
  r.source = x ∨ r.target = x

section ClaimFixtures

/-- A 384-dimensional vector, passing the projectors' dimension filter. -/
def vec384 : Embedding := List.replicate 384 1

/-- A 128-dimensional vector, failing the projectors' dimension filter. -/
def vec128 : Embedding := List.replicate 128 1

/-- A constant similarity oracle sitting above the 0.7 threshold. -/
def simW : Embedding → Embedding → ℚ := fun _ _ => 4/5

/-- A constant similarity oracle sitting below the 0.7 threshold. -/
def simLow : Embedding → Embedding → ℚ := fun _ _ => 0

/-- A deterministic partition oracle: every node into cluster 0. -/
def partFix : NXGraph String → ℚ → List (String × Nat) :=
  fun g _ => g.nodes.map (fun n => (n, 0))

/-- A store holding one tool, one workflow, and stale community state from an
earlier run. -/
def storeFix : Store :=
  { toolIds := ["a"], wfIds := ["w1"],
    toolEmbs := [("a", vec384)], wfEmbs := [("w1", vec384)],
    wfRows := [], ioRows := [],
    communityNodes := [7], subCommunityNodes := ["stale"], topicNodes := [],
    toolCommunityId := [("a", 7)], toolSubCommunityId := [("a", "stale")], toolTopicId := [],
    wfCommunityId := [("w1", 7)], wfSubCommunityId := [], wfTopicId := [] }

/-- The same store with no tools, so that a hierarchical run completes. -/
def storeWf : Store := { storeFix with toolIds := [], toolEmbs := [] }

end ClaimFixtures

/-! Concrete retrieval fixtures -/

/-- A vector index returning a tool accepting fastq and a higher-scoring tool
that does not. -/
def vidxD : Embedding → Nat → List ToolHit :=
  fun _ _ => [ToolHit.mk "t1" "T1" "d1" (9/10), ToolHit.mk "t2" "T2" "d2" (99/100)]

/-- Accepted-input-format relationships for the fixture tools. -/
def acceptsD : List (String × String) := [("t1", "fastq"), ("t2", "bam")]

/-! ## Lemmas: edge observables under the graph operations -/

section GraphLemmas

variable {α : Type} [DecidableEq α]

theorem find?_ext {β : Type} {p q : β → Bool} (h : ∀ x, p x = q x) (l : List β) :
    l.find? p = l.find? q := by
  induction l with
  | nil => rfl
  | cons a l ih =>
    by_cases hpa : p a = true
    · rw [List.find?_cons_of_pos _ hpa, List.find?_cons_of_pos _ ((h a).symm.trans hpa)]
    · rw [List.find?_cons_of_neg _ hpa, List.find?_cons_of_neg _ (by rw [← h a]; exact hpa), ih]

theorem any_eq_isSome_find? {β : Type} (l : List β) (p : β → Bool) :
    l.any p = (l.find? p).isSome := by
  induction l with
  | nil => rfl
  | cons a l ih =>
    by_cases hpa : p a = true
    · rw [List.find?_cons_of_pos _ hpa]
      simp [hpa]
    · rw [List.find?_cons_of_neg _ hpa, List.any_cons, ← ih]
      simp [hpa]

theorem sameEnds_pairEq {e : EdgeRec α} {u v s t : α}
    (h₁ : sameEnds e u v = true) (h₂ : sameEnds e s t = true) : PairEq u v s t := by
  simp only [sameEnds, Bool.or_eq_true, Bool.and_eq_true, decide_eq_true_eq] at h₁ h₂
  rcases h₁ with ⟨h₁a, h₁b⟩ | ⟨h₁a, h₁b⟩ <;> rcases h₂ with ⟨h₂a, h₂b⟩ | ⟨h₂a, h₂b⟩
  · exact Or.inl ⟨h₂a.symm.trans h₁a, h₂b.symm.trans h₁b⟩
  · exact Or.inr ⟨h₂b.symm.trans h₁b, h₂a.symm.trans h₁a⟩
  · exact Or.inr ⟨h₂a.symm.trans h₁a, h₂b.symm.trans h₁b⟩
  · exact Or.inl ⟨h₂b.symm.trans h₁b, h₂a.symm.trans h₁a⟩

theorem sameEnds_of_pairEq {e : EdgeRec α} {u v s t : α}
    (hp : PairEq u v s t) : sameEnds e s t = sameEnds e u v := by
  rcases hp with ⟨hs, ht⟩ | ⟨hs, ht⟩ <;> subst hs <;> subst ht
  · rfl
  · simp only [sameEnds]
    exact Bool.or_comm _ _

theorem sameEnds_mk {u v : α} {w : ℚ} {ty : Option String} :
    sameEnds (EdgeRec.mk u v w ty) u v = true := by
  simp [sameEnds]

namespace NXGraph

theorem hasEdge_eq_isSome_weight? (G : NXGraph α) (u v : α) :
    G.hasEdge u v = (G.weight? u v).isSome := by
  simp only [hasEdge, weight?, Option.isSome_map']
  exact any_eq_isSome_find? _ _

theorem weight?_of_pairEq (G : NXGraph α) {u v s t : α} (hp : PairEq u v s t) :
    G.weight? s t = G.weight? u v := by
  simp only [weight?]
  rw [find?_ext (fun e => sameEnds_of_pairEq hp)]

theorem hasEdge_of_pairEq (G : NXGraph α) {u v s t : α} (hp : PairEq u v s t) :
    G.hasEdge s t = G.hasEdge u v := by
  rw [hasEdge_eq_isSome_weight?, hasEdge_eq_isSome_weight?, G.weight?_of_pairEq hp]

theorem sameEnds_update {e : EdgeRec α} {u v : α} {f : EdgeRec α → EdgeRec α}
    (hf : (f e).ep1 = e.ep1 ∧ (f e).ep2 = e.ep2) :
    sameEnds (f e) u v = sameEnds e u v := by
  simp only [sameEnds, hf.1, hf.2]

theorem weight?_incWeight_pairEq (G : NXGraph α) {u v s t : α} (w : ℚ)
    (hp : PairEq u v s t) :
    (G.incWeight s t w).weight? u v = (G.weight? u v).map (· + w) := by
  have hpres : ∀ e : EdgeRec α,
      sameEnds (if sameEnds e s t then { e with weight := e.weight + w } else e) u v
        = sameEnds e u v := by
    intro e
    by_cases h : sameEnds e s t = true
    · rw [if_pos h]; rfl
    · rw [if_neg h]
  simp only [incWeight, weight?, List.find?_map, Function.comp_def]
  rw [find?_ext (fun e => hpres e)]
  cases hfind : G.edges.find? (fun e => sameEnds e u v) with
  | none => simp
  | some e =>
    have he : sameEnds e u v = true := by simpa using List.find?_some hfind
    have hst : sameEnds e s t = true := by rw [sameEnds_of_pairEq hp]; exact he
    simp [hst]

theorem weight?_incWeight_other (G : NXGraph α) {u v s t : α} (w : ℚ)
    (hp : ¬ PairEq u v s t) :
    (G.incWeight s t w).weight? u v = G.weight? u v := by
  have hpres : ∀ e : EdgeRec α,
      sameEnds (if sameEnds e s t then { e with weight := e.weight + w } else e) u v
        = sameEnds e u v := by
    intro e
    by_cases h : sameEnds e s t = true
    · rw [if_pos h]; rfl
    · rw [if_neg h]
  simp only [incWeight, weight?, List.find?_map, Function.comp_def]
  rw [find?_ext (fun e => hpres e)]
  cases hfind : G.edges.find? (fun e => sameEnds e u v) with
  | none => simp
  | some e =>
    have he : sameEnds e u v = true := by simpa using List.find?_some hfind
    have hne : ¬ sameEnds e s t = true := fun h => hp (sameEnds_pairEq he h)
    simp [hne]

theorem weight?_addEdge_other (G : NXGraph α) {u v s t : α} (w : ℚ) (ty : Option String)
    (hp : ¬ PairEq u v s t) :
    (G.addEdge s t w ty).weight? u v = G.weight? u v := by
  simp only [addEdge]
  by_cases h : G.hasEdge s t = true
  · rw [if_pos h]
    have hpres : ∀ e : EdgeRec α,
        sameEnds (if sameEnds e s t then { e with weight := w, etype := ty } else e) u v
          = sameEnds e u v := by
      intro e
      by_cases hst : sameEnds e s t = true
      · rw [if_pos hst]; rfl
      · rw [if_neg hst]
    simp only [weight?, List.find?_map, Function.comp_def]
    rw [find?_ext (fun e => hpres e)]
    cases hfind : G.edges.find? (fun e => sameEnds e u v) with
    | none => simp
    | some e =>
      have he : sameEnds e u v = true := by simpa using List.find?_some hfind
      have hne : ¬ sameEnds e s t = true := fun hst => hp (sameEnds_pairEq he hst)
      simp [hne]
  · rw [if_neg h]
    simp only [weight?, List.find?_append]
    have hlast : List.find? (fun e => sameEnds e u v) [EdgeRec.mk s t w ty] = none := by
      rw [List.find?_eq_none]
      intro e he
      simp only [List.mem_singleton] at he
      subst he
      intro hmk
      exact hp (sameEnds_pairEq hmk (sameEnds_mk))
    rw [hlast, Option.or_none]

theorem weight?_addEdge_pairEq_new (G : NXGraph α) {u v s t : α} (w : ℚ) (ty : Option String)
    (hp : PairEq u v s t) (h : G.hasEdge s t = false) :
    (G.addEdge s t w ty).weight? u v = some w := by
  have hnone : List.find? (fun e => sameEnds e u v) G.edges = none := by
    rw [List.find?_eq_none]
    intro e he hmk
    have hor : G.hasEdge u v = true := by
      simp only [hasEdge, List.any_eq_true]
      exact ⟨e, he, hmk⟩
    rw [← hasEdge_of_pairEq G hp, h] at hor
    exact Bool.false_ne_true hor
  have hmk : sameEnds (EdgeRec.mk s t w ty) u v = true := by
    rw [← sameEnds_of_pairEq hp]
    exact sameEnds_mk
  simp only [addEdge, h, Bool.false_eq_true, if_false, weight?, List.find?_append, hnone,
    Option.none_or]
  rw [show List.find? (fun e => sameEnds e u v) [EdgeRec.mk s t w ty]
        = some (EdgeRec.mk s t w ty) from List.find?_cons_of_pos _ hmk]
  rfl

theorem weight?_addEdge_pairEq_overwrite (G : NXGraph α) {u v s t : α} (w : ℚ)
    (ty : Option String) (hp : PairEq u v s t) (h : G.hasEdge s t = true) :
    (G.addEdge s t w ty).weight? u v = some w := by
  have hpres : ∀ e : EdgeRec α,
      sameEnds (if sameEnds e s t then { e with weight := w, etype := ty } else e) u v
        = sameEnds e u v := by
    intro e
    by_cases hst : sameEnds e s t = true
    · rw [if_pos hst]; rfl
    · rw [if_neg hst]
  simp only [addEdge, h, if_true, weight?, List.find?_map, Function.comp_def]
  rw [find?_ext (fun e => hpres e)]
  have hsome : G.hasEdge u v = true := by rw [← hasEdge_of_pairEq G hp]; exact h
  simp only [hasEdge, List.any_eq_true] at hsome
  obtain ⟨e, he, hme⟩ := hsome
  cases hfind : G.edges.find? (fun e => sameEnds e u v) with
  | none =>
    rw [List.find?_eq_none] at hfind
    exact absurd hme (hfind e he)
  | some e' =>
    have he' : sameEnds e' u v = true := by simpa using List.find?_some hfind
    have hst : sameEnds e' s t = true := by rw [sameEnds_of_pairEq hp]; exact he'
    simp [hst]

end NXGraph

theorem rowMatches_iff_pairEq {u v : α} {r : EdgeRow α} :
    rowMatches u v r = true ↔ PairEq u v r.source r.target := by
  simp [rowMatches, PairEq]

theorem rowSum_nil (u v : α) : rowSum ([] : List (EdgeRow α)) u v = 0 := rfl

theorem rowSum_cons (r : EdgeRow α) (rows : List (EdgeRow α)) (u v : α) :
    rowSum (r :: rows) u v =
      (if rowMatches u v r = true then r.weight else 0) + rowSum rows u v := by
  by_cases h : rowMatches u v r = true
  · simp [rowSum, List.filter_cons, h]
  · simp [rowSum, List.filter_cons, h]

theorem weight?_applyRow_other (factor : ℚ) (ty : Option String) (g : NXGraph α)
    (r : EdgeRow α) {u v : α} (h : rowMatches u v r = false) :
    (applyRow factor ty g r).weight? u v = g.weight? u v := by
  have hnp : ¬ PairEq u v r.source r.target := by
    rw [← rowMatches_iff_pairEq, h]
    exact Bool.false_ne_true
  unfold applyRow
  by_cases hg : g.hasEdge r.source r.target = true
  · rw [if_pos hg]
    exact g.weight?_incWeight_other _ hnp
  · rw [if_neg hg]
    exact g.weight?_addEdge_other _ _ hnp

theorem weight?_applyRow_match_some (factor : ℚ) (ty : Option String) (g : NXGraph α)
    (r : EdgeRow α) {u v : α} {w₀ : ℚ} (h : rowMatches u v r = true)
    (hw : g.weight? u v = some w₀) :
    (applyRow factor ty g r).weight? u v = some (w₀ + r.weight * factor) := by
  have hp : PairEq u v r.source r.target := rowMatches_iff_pairEq.mp h
  have hg : g.hasEdge r.source r.target = true := by
    rw [NXGraph.hasEdge_of_pairEq g hp, NXGraph.hasEdge_eq_isSome_weight?, hw]
    rfl
  unfold applyRow
  rw [if_pos hg, g.weight?_incWeight_pairEq _ hp, hw]
  rfl

theorem weight?_applyRow_match_none (factor : ℚ) (ty : Option String) (g : NXGraph α)
    (r : EdgeRow α) {u v : α} (h : rowMatches u v r = true)
    (hw : g.weight? u v = none) :
    (applyRow factor ty g r).weight? u v = some (r.weight * factor) := by
  have hp : PairEq u v r.source r.target := rowMatches_iff_pairEq.mp h
  have hg : g.hasEdge r.source r.target = false := by
    rw [NXGraph.hasEdge_of_pairEq g hp, NXGraph.hasEdge_eq_isSome_weight?, hw]
    rfl
  unfold applyRow
  rw [if_neg (by rw [hg]; exact Bool.false_ne_true)]
  exact g.weight?_addEdge_pairEq_new _ _ hp hg

/-- Folding one merge loop over its rows adds `rowSum · factor` to an edge
that already exists. -/
theorem foldl_applyRow_weight?_some (factor : ℚ) (ty : Option String)
    (rows : List (EdgeRow α)) (g : NXGraph α) (u v : α) (w₀ : ℚ)
    (hw : g.weight? u v = some w₀) :
    (rows.foldl (applyRow factor ty) g).weight? u v
      = some (w₀ + rowSum rows u v * factor) := by
  induction rows generalizing g w₀ with
  | nil => simp [rowSum_nil, hw]
  | cons r rows ih =>
    rw [List.foldl_cons]
    by_cases h : rowMatches u v r = true
    · rw [ih _ _ (weight?_applyRow_match_some factor ty g r h hw), rowSum_cons]
      rw [if_pos h]
      congr 1
      ring
    · rw [ih _ _ (by rw [weight?_applyRow_other factor ty g r (Bool.of_not_eq_true h)]; exact hw)]
      rw [rowSum_cons, if_neg h]
      congr 2
      ring

/-- Folding one merge loop over its rows creates the edge with weight
`rowSum · factor` when it does not yet exist and at least one row matches,
and leaves it absent when no row matches. -/
theorem foldl_applyRow_weight?_none (factor : ℚ) (ty : Option String)
    (rows : List (EdgeRow α)) (g : NXGraph α) (u v : α)
    (hw : g.weight? u v = none) :
    (rows.foldl (applyRow factor ty) g).weight? u v
      = if rows.filter (rowMatches u v) = [] then none
        else some (rowSum rows u v * factor) := by
  induction rows generalizing g with
  | nil => simp [hw]
  | cons r rows ih =>
    rw [List.foldl_cons]
    by_cases h : rowMatches u v r = true
    · rw [foldl_applyRow_weight?_some factor ty rows _ u v _
        (weight?_applyRow_match_none factor ty g r h hw)]
      rw [List.filter_cons_of_pos h, rowSum_cons, if_pos h]
      simp only [reduceCtorEq, if_false]
      congr 1
      ring
    · rw [ih _ (by rw [weight?_applyRow_other factor ty g r (Bool.of_not_eq_true h)]; exact hw)]
      rw [List.filter_cons_of_neg h, rowSum_cons, if_neg h]
      congr 2
      ring

/-- When at least one embedding survives the dimension filter,
`build_weighted_graph` is the two merge folds applied to the semantic stage. -/
theorem build_weighted_graph_eq_folds (sim : Embedding → Embedding → ℚ)
    (embs : List (α × Embedding)) (wfRows ioRows : List (EdgeRow α))
    (hvalid : (validEmbeddings embs).map Prod.fst ≠ []) :
    build_weighted_graph sim embs wfRows ioRows
      = ioRows.foldl (applyRow (1/2) (some "io"))
          (wfRows.foldl (applyRow 1 (some "workflow")) (semanticStage sim embs)) := by
  unfold build_weighted_graph
  rw [if_neg hvalid]

theorem rowSum_eq_zero_of_filter_nil {rows : List (EdgeRow α)} {u v : α}
    (h : rows.filter (rowMatches u v) = []) : rowSum rows u v = 0 := by
  simp [rowSum, h]

/-! ### The semantic pass: existence, weight and uniqueness of semantic edges -/

theorem hasEdge_addEdge_imp (G : NXGraph α) {u v s t : α} {w : ℚ} {ty : Option String}
    (h : (G.addEdge s t w ty).hasEdge u v = true) :
    G.hasEdge u v = true ∨ PairEq u v s t := by
  unfold NXGraph.addEdge at h
  by_cases hst : G.hasEdge s t = true
  · rw [if_pos hst] at h
    left
    simp only [NXGraph.hasEdge, List.any_eq_true] at h ⊢
    obtain ⟨e, he, hme⟩ := h
    obtain ⟨e₀, he₀, rfl⟩ := List.mem_map.mp he
    by_cases h₀ : sameEnds e₀ s t = true
    · rw [if_pos h₀] at hme
      refine ⟨e₀, he₀, ?_⟩
      rw [← hme]
      rfl
    · rw [if_neg h₀] at hme
      exact ⟨e₀, he₀, hme⟩
  · rw [if_neg hst] at h
    simp only [NXGraph.hasEdge, List.any_eq_true, List.mem_append, List.mem_singleton] at h
    obtain ⟨e, he | he, hme⟩ := h
    · left
      simp only [NXGraph.hasEdge, List.any_eq_true]
      exact ⟨e, he, hme⟩
    · right
      subst he
      exact sameEnds_pairEq hme sameEnds_mk

theorem weight?_semStep_other (sim : Embedding → Embedding → ℚ) (th : ℚ) (ty : Option String)
    (g : NXGraph α) (q : (Nat × (α × Embedding)) × (Nat × (α × Embedding))) {u v : α}
    (h : (th < sim q.1.2.2 q.2.2.2 ∧ q.1.1 < q.2.1) → ¬ PairEq u v q.1.2.1 q.2.2.1) :
    (semStep sim th ty g q).weight? u v = g.weight? u v := by
  unfold semStep
  by_cases hc : th < sim q.1.2.2 q.2.2.2 ∧ q.1.1 < q.2.1
  · rw [if_pos hc]
    exact g.weight?_addEdge_other _ _ (h hc)
  · rw [if_neg hc]

theorem foldl_semStep_weight?_none (sim : Embedding → Embedding → ℚ) (th : ℚ)
    (ty : Option String) (L : List ((Nat × (α × Embedding)) × (Nat × (α × Embedding))))
    (G : NXGraph α) (u v : α)
    (h : ∀ q ∈ L, (th < sim q.1.2.2 q.2.2.2 ∧ q.1.1 < q.2.1) → ¬ PairEq u v q.1.2.1 q.2.2.1) :
    (L.foldl (semStep sim th ty) G).weight? u v = G.weight? u v := by
  induction L generalizing G with
  | nil => rfl
  | cons q L ih =>
    rw [List.foldl_cons, ih _ (fun p hp => h p (List.mem_cons_of_mem q hp)),
      weight?_semStep_other sim th ty G q (h q (List.mem_cons_self q L))]

theorem foldl_semStep_weight?_keep (sim : Embedding → Embedding → ℚ) (th : ℚ)
    (ty : Option String) (L : List ((Nat × (α × Embedding)) × (Nat × (α × Embedding))))
    (G : NXGraph α) (u v : α) (w : ℚ) (hW : G.weight? u v = some w)
    (huniq : ∀ q ∈ L, (th < sim q.1.2.2 q.2.2.2 ∧ q.1.1 < q.2.1) →
       PairEq u v q.1.2.1 q.2.2.1 → sim q.1.2.2 q.2.2.2 = w) :
    (L.foldl (semStep sim th ty) G).weight? u v = some w := by
  induction L generalizing G with
  | nil => exact hW
  | cons q L ih =>
    rw [List.foldl_cons]
    by_cases hc : th < sim q.1.2.2 q.2.2.2 ∧ q.1.1 < q.2.1
    · by_cases hm : PairEq u v q.1.2.1 q.2.2.1
      · refine ih _ ?_ (fun p hp => huniq p (List.mem_cons_of_mem q hp))
        have hhe : G.hasEdge q.1.2.1 q.2.2.1 = true := by
          rw [NXGraph.hasEdge_of_pairEq G hm, NXGraph.hasEdge_eq_isSome_weight?, hW]
          rfl
        unfold semStep
        rw [if_pos hc, G.weight?_addEdge_pairEq_overwrite _ _ hm hhe,
          huniq q (List.mem_cons_self q L) hc hm]
      · refine ih _ ?_ (fun p hp => huniq p (List.mem_cons_of_mem q hp))
        rw [weight?_semStep_other sim th ty G q (fun _ => hm)]
        exact hW
    · refine ih _ ?_ (fun p hp => huniq p (List.mem_cons_of_mem q hp))
      rw [weight?_semStep_other sim th ty G q (fun hcc => absurd hcc hc)]
      exact hW

theorem foldl_semStep_weight?_found (sim : Embedding → Embedding → ℚ) (th : ℚ)
    (ty : Option String) (L : List ((Nat × (α × Embedding)) × (Nat × (α × Embedding))))
    (G : NXGraph α) (u v : α) (w : ℚ) (hW : G.weight? u v = none)
    (hex : ∃ q ∈ L, (th < sim q.1.2.2 q.2.2.2 ∧ q.1.1 < q.2.1) ∧ PairEq u v q.1.2.1 q.2.2.1)
    (huniq : ∀ q ∈ L, (th < sim q.1.2.2 q.2.2.2 ∧ q.1.1 < q.2.1) →
       PairEq u v q.1.2.1 q.2.2.1 → sim q.1.2.2 q.2.2.2 = w) :
    (L.foldl (semStep sim th ty) G).weight? u v = some w := by
  induction L generalizing G with
  | nil => obtain ⟨q, hq, _⟩ := hex; exact absurd hq (List.not_mem_nil q)
  | cons q L ih =>
    rw [List.foldl_cons]
    by_cases hc : th < sim q.1.2.2 q.2.2.2 ∧ q.1.1 < q.2.1
    · by_cases hm : PairEq u v q.1.2.1 q.2.2.1
      · have hhe : G.hasEdge q.1.2.1 q.2.2.1 = false := by
          rw [NXGraph.hasEdge_of_pairEq G hm, NXGraph.hasEdge_eq_isSome_weight?, hW]
          rfl
        have hs : (semStep sim th ty G q).weight? u v = some w := by
          unfold semStep
          rw [if_pos hc, G.weight?_addEdge_pairEq_new _ _ hm hhe,
            huniq q (List.mem_cons_self q L) hc hm]
        exact foldl_semStep_weight?_keep sim th ty L _ u v w hs
          (fun p hp => huniq p (List.mem_cons_of_mem q hp))
      · have hs : (semStep sim th ty G q).weight? u v = none := by
          rw [weight?_semStep_other sim th ty G q (fun _ => hm)]
          exact hW
        refine ih _ hs ?_ (fun p hp => huniq p (List.mem_cons_of_mem q hp))
        obtain ⟨p, hp, hpc, hpm⟩ := hex
        rcases List.mem_cons.mp hp with rfl | hp'
        · exact absurd hpm hm
        · exact ⟨p, hp', hpc, hpm⟩
    · have hs : (semStep sim th ty G q).weight? u v = none := by
        rw [weight?_semStep_other sim th ty G q (fun hcc => absurd hcc hc)]
        exact hW
      refine ih _ hs ?_ (fun p hp => huniq p (List.mem_cons_of_mem q hp))
      obtain ⟨p, hp, hpc, hpm⟩ := hex
      rcases List.mem_cons.mp hp with rfl | hp'
      · exact absurd hpc hc
      · exact ⟨p, hp', hpc, hpm⟩

theorem foldl_semStep_hasEdge_imp (sim : Embedding → Embedding → ℚ) (th : ℚ)
    (ty : Option String) (L : List ((Nat × (α × Embedding)) × (Nat × (α × Embedding))))
    (G : NXGraph α) (u v : α)
    (h : (L.foldl (semStep sim th ty) G).hasEdge u v = true) :
    G.hasEdge u v = true
      ∨ ∃ q ∈ L, (th < sim q.1.2.2 q.2.2.2 ∧ q.1.1 < q.2.1) ∧ PairEq u v q.1.2.1 q.2.2.1 := by
  induction L generalizing G with
  | nil => exact Or.inl h
  | cons q L ih =>
    rw [List.foldl_cons] at h
    rcases ih _ h with hbase | ⟨p, hp, hpc, hpm⟩
    · unfold semStep at hbase
      by_cases hc : th < sim q.1.2.2 q.2.2.2 ∧ q.1.1 < q.2.1
      · rw [if_pos hc] at hbase
        rcases hasEdge_addEdge_imp G hbase with hG | hpe
        · exact Or.inl hG
        · exact Or.inr ⟨q, List.mem_cons_self q L, hc, hpe⟩
      · rw [if_neg hc] at hbase
        exact Or.inl hbase
    · exact Or.inr ⟨p, List.mem_cons_of_mem q hp, hpc, hpm⟩

theorem samePair_mk_iff {e : EdgeRec α} {s t : α} {w : ℚ} {ty : Option String} :
    NXGraph.SamePair e (EdgeRec.mk s t w ty) ↔ sameEnds e s t = true := by
  simp [NXGraph.SamePair, sameEnds]

theorem good_addEdge (G : NXGraph α) (s t : α) (w : ℚ) (ty : Option String)
    (h : G.Good) : (G.addEdge s t w ty).Good := by
  unfold NXGraph.addEdge
  by_cases hst : G.hasEdge s t = true
  · rw [if_pos hst]
    unfold NXGraph.Good at h ⊢
    simp only
    refine List.Pairwise.map _ ?_ h
    intro a b hab hcon
    apply hab
    have hep : ∀ e : EdgeRec α,
        ((if sameEnds e s t then { e with weight := w, etype := ty } else e) : EdgeRec α).ep1 = e.ep1
        ∧ ((if sameEnds e s t then { e with weight := w, etype := ty } else e) : EdgeRec α).ep2 = e.ep2 := by
      intro e
      by_cases he : sameEnds e s t = true
      · rw [if_pos he]; exact ⟨rfl, rfl⟩
      · rw [if_neg he]; exact ⟨rfl, rfl⟩
    unfold NXGraph.SamePair at hcon ⊢
    rw [(hep a).1, (hep a).2, (hep b).1, (hep b).2] at hcon
    exact hcon
  · rw [if_neg hst]
    unfold NXGraph.Good at h ⊢
    simp only
    rw [List.pairwise_append]
    refine ⟨h, List.pairwise_singleton _ _, ?_⟩
    intro a ha b hb hcon
    simp only [List.mem_singleton] at hb
    subst hb
    rw [samePair_mk_iff] at hcon
    have : G.hasEdge s t = true := by
      simp only [NXGraph.hasEdge, List.any_eq_true]
      exact ⟨a, ha, hcon⟩
    exact hst this

theorem good_foldl_semStep (sim : Embedding → Embedding → ℚ) (th : ℚ) (ty : Option String)
    (L : List ((Nat × (α × Embedding)) × (Nat × (α × Embedding)))) (G : NXGraph α)
    (h : G.Good) : (L.foldl (semStep sim th ty) G).Good := by
  induction L generalizing G with
  | nil => exact h
  | cons q L ih =>
    rw [List.foldl_cons]
    refine ih _ ?_
    unfold semStep
    by_cases hc : th < sim q.1.2.2 q.2.2.2 ∧ q.1.1 < q.2.1
    · rw [if_pos hc]
      exact good_addEdge _ _ _ _ _ h
    · rw [if_neg hc]
      exact h

theorem nodup_fst_pin {valid : List (α × Embedding)} (hnodup : (valid.map Prod.fst).Nodup)
    {i j : Nat} {x y : α × Embedding}
    (hi : valid.get? i = some x) (hj : valid.get? j = some y) (hxy : x.1 = y.1) :
    i = j ∧ x = y := by
  obtain ⟨hil, hxe⟩ := List.get?_eq_some.mp hi
  obtain ⟨hjl, hye⟩ := List.get?_eq_some.mp hj
  have hil' : i < (valid.map Prod.fst).length := by simpa using hil
  have hjl' : j < (valid.map Prod.fst).length := by simpa using hjl
  have hmi : (valid.map Prod.fst).get ⟨i, hil'⟩ = x.1 := by
    rw [List.get_map]
    exact congrArg Prod.fst hxe
  have hmj : (valid.map Prod.fst).get ⟨j, hjl'⟩ = y.1 := by
    rw [List.get_map]
    exact congrArg Prod.fst hye
  have hfin : (⟨i, hil'⟩ : Fin (valid.map Prod.fst).length) = ⟨j, hjl'⟩ :=
    hnodup.get_inj_iff.mp (by rw [hmi, hmj, hxy])
  have hij : i = j := congrArg Fin.val hfin
  subst hij
  refine ⟨rfl, ?_⟩
  have := hi.symm.trans hj
  exact Option.some.inj this

/-- The full characterization of the semantic pass on a duplicate-free valid
list: for upper-triangle positions `r < c`, an edge exists iff the similarity
exceeds the threshold, its weight is that similarity, and the resulting graph
has no duplicate edges. -/
theorem semanticPass_spec (sim : Embedding → Embedding → ℚ) (th : ℚ) (ty : Option String)
    (valid : List (α × Embedding)) (hnodup : (valid.map Prod.fst).Nodup)
    (r c : Nat) (hrc : r < c) (hc : c < valid.length) :
    ((semanticPass sim th ty valid ⟨valid.map Prod.fst, []⟩).hasEdge
        (valid.get ⟨r, lt_trans hrc hc⟩).1 (valid.get ⟨c, hc⟩).1 = true
      ↔ th < sim (valid.get ⟨r, lt_trans hrc hc⟩).2 (valid.get ⟨c, hc⟩).2)
    ∧ (th < sim (valid.get ⟨r, lt_trans hrc hc⟩).2 (valid.get ⟨c, hc⟩).2 →
        (semanticPass sim th ty valid ⟨valid.map Prod.fst, []⟩).weight?
            (valid.get ⟨r, lt_trans hrc hc⟩).1 (valid.get ⟨c, hc⟩).1
          = some (sim (valid.get ⟨r, lt_trans hrc hc⟩).2 (valid.get ⟨c, hc⟩).2))
    ∧ (semanticPass sim th ty valid ⟨valid.map Prod.fst, []⟩).Good := by
  have hr' : r < valid.length := lt_trans hrc hc
  set er := valid.get ⟨r, hr'⟩ with her
  set ec := valid.get ⟨c, hc⟩ with hec
  have hrq : valid.get? r = some er := List.get?_eq_get hr'
  have hcq : valid.get? c = some ec := List.get?_eq_get hc
  have hpin : ∀ q ∈ enumPairs valid,
      (th < sim q.1.2.2 q.2.2.2 ∧ q.1.1 < q.2.1) → PairEq er.1 ec.1 q.1.2.1 q.2.2.1 →
      q.1.2 = er ∧ q.2.2 = ec := by
    intro q hq hcnd hpe
    obtain ⟨a, ha, hq2⟩ := List.mem_flatMap.mp hq
    obtain ⟨b, hb, hab⟩ := List.mem_map.mp hq2
    subst hab
    have haq : valid.get? a.1 = some a.2 := List.mem_enum_iff_get?.mp ha
    have hbq : valid.get? b.1 = some b.2 := List.mem_enum_iff_get?.mp hb
    rcases hpe with ⟨h1, h2⟩ | ⟨h1, h2⟩
    · obtain ⟨_, hx⟩ := nodup_fst_pin hnodup haq hrq h1
      obtain ⟨_, hy⟩ := nodup_fst_pin hnodup hbq hcq h2
      exact ⟨hx, hy⟩
    · obtain ⟨hac, _⟩ := nodup_fst_pin hnodup haq hcq h1
      obtain ⟨hbr, _⟩ := nodup_fst_pin hnodup hbq hrq h2
      have : c < r := by
        rw [← hac, ← hbr]
        exact hcnd.2
      exact absurd hrc (Nat.lt_asymm this)
  have hbase : (⟨valid.map Prod.fst, ([] : List (EdgeRec α))⟩ : NXGraph α).weight? er.1 ec.1
      = none := rfl
  have hmem : ((r, er), (c, ec)) ∈ enumPairs valid := by
    refine List.mem_flatMap.mpr ⟨(r, er), List.mem_enum_iff_get?.mpr hrq, ?_⟩
    exact List.mem_map.mpr ⟨(c, ec), List.mem_enum_iff_get?.mpr hcq, rfl⟩
  have huniq : ∀ q ∈ enumPairs valid,
      (th < sim q.1.2.2 q.2.2.2 ∧ q.1.1 < q.2.1) → PairEq er.1 ec.1 q.1.2.1 q.2.2.1 →
      sim q.1.2.2 q.2.2.2 = sim er.2 ec.2 := by
    intro q hq hcnd hpe
    obtain ⟨h1, h2⟩ := hpin q hq hcnd hpe
    rw [h1, h2]
  refine ⟨⟨?_, ?_⟩, ?_, ?_⟩
  · intro hhe
    rcases foldl_semStep_hasEdge_imp sim th ty (enumPairs valid) _ er.1 ec.1 hhe with
      hfalse | ⟨q, hq, hcnd, hpe⟩
    · exact absurd hfalse (by simp [NXGraph.hasEdge])
    · obtain ⟨h1, h2⟩ := hpin q hq hcnd hpe
      rw [h1, h2] at hcnd
      exact hcnd.1
  · intro hth
    have hw : (semanticPass sim th ty valid ⟨valid.map Prod.fst, []⟩).weight? er.1 ec.1
        = some (sim er.2 ec.2) :=
      foldl_semStep_weight?_found sim th ty (enumPairs valid) _ er.1 ec.1 _ hbase
        ⟨((r, er), (c, ec)), hmem, ⟨hth, hrc⟩, Or.inl ⟨rfl, rfl⟩⟩ huniq
    rw [NXGraph.hasEdge_eq_isSome_weight?, hw]
    rfl
  · intro hth
    exact foldl_semStep_weight?_found sim th ty (enumPairs valid) _ er.1 ec.1 _ hbase
      ⟨((r, er), (c, ec)), hmem, ⟨hth, hrc⟩, Or.inl ⟨rfl, rfl⟩⟩ huniq
  · exact good_foldl_semStep sim th ty (enumPairs valid) _ List.Pairwise.nil

end GraphLemmas

/-! ## String-key lemmas for the universal projector -/

theorem string_append_data (a b : String) : (a ++ b).data = a.data ++ b.data := rfl

theorem string_data_inj {a b : String} (h : a.data = b.data) : a = b := by
  cases a
  cases b
  exact congrArg String.mk h

theorem toolKey_injective : Function.Injective toolKey := by
  intro x y h
  have hd := congrArg String.data h
  rw [toolKey, toolKey, string_append_data, string_append_data] at hd
  exact string_data_inj (List.append_cancel_left hd)

theorem workflowKey_injective : Function.Injective workflowKey := by
  intro x y h
  have hd := congrArg String.data h
  rw [workflowKey, workflowKey, string_append_data, string_append_data] at hd
  exact string_data_inj (List.append_cancel_left hd)

theorem toolKey_ne_workflowKey (x y : String) : toolKey x ≠ workflowKey y := by
  intro h
  have hd := congrArg String.data h
  rw [toolKey, workflowKey, string_append_data, string_append_data] at hd
  have h1 : "Tool:".data = ['T', 'o', 'o', 'l', ':'] := rfl
  have h2 : "Workflow:".data = ['W', 'o', 'r', 'k', 'f', 'l', 'o', 'w', ':'] := rfl
  rw [h1, h2] at hd
  simp at hd

theorem universal_keys_nodup (toolEmbs wfEmbs : List (String × Embedding))
    (hnt : (toolEmbs.map Prod.fst).Nodup) (hnw : (wfEmbs.map Prod.fst).Nodup) :
    (((fetch_all_embeddings toolEmbs wfEmbs).1).map Prod.fst).Nodup := by
  have hmap : ((fetch_all_embeddings toolEmbs wfEmbs).1).map Prod.fst
      = (toolEmbs.map Prod.fst).map toolKey ++ (wfEmbs.map Prod.fst).map workflowKey := by
    simp [fetch_all_embeddings, List.map_map, Function.comp_def]
  rw [hmap]
  refine List.Nodup.append (hnt.map toolKey_injective) (hnw.map workflowKey_injective) ?_
  intro a hat haw
  obtain ⟨x, _, rfl⟩ := List.mem_map.mp hat
  obtain ⟨y, _, hya⟩ := List.mem_map.mp haw
  exact toolKey_ne_workflowKey x y hya.symm

section NodeLemmas

variable {α : Type} [DecidableEq α]

theorem mem_addNode_iff {G : NXGraph α} {x v : α} :
    x ∈ (G.addNode v).nodes ↔ x ∈ G.nodes ∨ x = v := by
  unfold NXGraph.addNode
  by_cases h : v ∈ G.nodes
  · rw [if_pos h]
    constructor
    · exact Or.inl
    · rintro (hx | rfl)
      · exact hx
      · exact h
  · rw [if_neg h]
    simp

theorem nodes_addEdge_superset (G : NXGraph α) (s t : α) (w : ℚ) (ty : Option String) :
    G.nodes ⊆ (G.addEdge s t w ty).nodes := by
  intro x hx
  unfold NXGraph.addEdge
  by_cases h : G.hasEdge s t = true
  · rw [if_pos h]
    exact hx
  · rw [if_neg h]
    simp only [mem_addNode_iff]
    exact Or.inl (Or.inl hx)

theorem mem_nodes_addEdge {G : NXGraph α} {x s t : α} {w : ℚ} {ty : Option String}
    (h : x ∈ (G.addEdge s t w ty).nodes) : x ∈ G.nodes ∨ x = s ∨ x = t := by
  unfold NXGraph.addEdge at h
  by_cases he : G.hasEdge s t = true
  · rw [if_pos he] at h
    exact Or.inl h
  · rw [if_neg he] at h
    simp only [mem_addNode_iff] at h
    rcases h with (hx | rfl) | rfl
    · exact Or.inl hx
    · exact Or.inr (Or.inl rfl)
    · exact Or.inr (Or.inr rfl)

theorem nodes_addEdge_of_mem {G : NXGraph α} {s t : α} (hs : s ∈ G.nodes) (ht : t ∈ G.nodes)
    (w : ℚ) (ty : Option String) : (G.addEdge s t w ty).nodes = G.nodes := by
  unfold NXGraph.addEdge
  by_cases h : G.hasEdge s t = true
  · rw [if_pos h]
  · rw [if_neg h]
    unfold NXGraph.addNode
    rw [if_pos hs, if_pos ht]

theorem nodes_foldl_semStep (sim : Embedding → Embedding → ℚ) (th : ℚ) (ty : Option String)
    (L : List ((Nat × (α × Embedding)) × (Nat × (α × Embedding)))) (G : NXGraph α)
    (h : ∀ q ∈ L, q.1.2.1 ∈ G.nodes ∧ q.2.2.1 ∈ G.nodes) :
    (L.foldl (semStep sim th ty) G).nodes = G.nodes := by
  induction L generalizing G with
  | nil => rfl
  | cons q L ih =>
    rw [List.foldl_cons]
    have hstep : (semStep sim th ty G q).nodes = G.nodes := by
      unfold semStep
      by_cases hc : th < sim q.1.2.2 q.2.2.2 ∧ q.1.1 < q.2.1
      · rw [if_pos hc]
        exact nodes_addEdge_of_mem (h q (List.mem_cons_self q L)).1
          (h q (List.mem_cons_self q L)).2 _ _
      · rw [if_neg hc]
    rw [ih _ (fun p hp => by
      rw [hstep]
      exact h p (List.mem_cons_of_mem q hp))]
    exact hstep

theorem mem_enumPairs_fst {valid : List (α × Embedding)}
    {q : (Nat × (α × Embedding)) × (Nat × (α × Embedding))} (hq : q ∈ enumPairs valid) :
    q.1.2 ∈ valid ∧ q.2.2 ∈ valid := by
  obtain ⟨a, ha, hq2⟩ := List.mem_flatMap.mp hq
  obtain ⟨b, hb, hab⟩ := List.mem_map.mp hq2
  subst hab
  have haq : valid.get? a.1 = some a.2 := List.mem_enum_iff_get?.mp ha
  have hbq : valid.get? b.1 = some b.2 := List.mem_enum_iff_get?.mp hb
  exact ⟨List.get?_mem haq, List.get?_mem hbq⟩

theorem nodes_semanticPass (sim : Embedding → Embedding → ℚ) (th : ℚ) (ty : Option String)
    (valid : List (α × Embedding)) :
    (semanticPass sim th ty valid ⟨valid.map Prod.fst, []⟩).nodes = valid.map Prod.fst := by
  unfold semanticPass
  exact nodes_foldl_semStep sim th ty (enumPairs valid) _ (fun q hq =>
    ⟨List.mem_map_of_mem Prod.fst (mem_enumPairs_fst hq).1,
     List.mem_map_of_mem Prod.fst (mem_enumPairs_fst hq).2⟩)

theorem nodes_foldl_applyRow_superset (factor : ℚ) (ty : Option String)
    (rows : List (EdgeRow α)) (G : NXGraph α) :
    G.nodes ⊆ (rows.foldl (applyRow factor ty) G).nodes := by
  induction rows generalizing G with
  | nil => exact fun x hx => hx
  | cons r rows ih =>
    rw [List.foldl_cons]
    intro x hx
    refine ih _ ?_
    unfold applyRow
    by_cases h : G.hasEdge r.source r.target = true
    · rw [if_pos h]
      exact hx
    · rw [if_neg h]
      exact nodes_addEdge_superset G _ _ _ _ hx

theorem mem_nodes_foldl_applyRow {factor : ℚ} {ty : Option String}
    {rows : List (EdgeRow α)} {G : NXGraph α} {x : α}
    (h : x ∈ (rows.foldl (applyRow factor ty) G).nodes) :
    x ∈ G.nodes ∨ ∃ r ∈ rows, rowMentions x r := by
  induction rows generalizing G with
  | nil => exact Or.inl h
  | cons r rows ih =>
    rw [List.foldl_cons] at h
    rcases ih h with hbase | ⟨r', hr', hm⟩
    · unfold applyRow at hbase
      by_cases hc : G.hasEdge r.source r.target = true
      · rw [if_pos hc] at hbase
        exact Or.inl hbase
      · rw [if_neg hc] at hbase
        rcases mem_nodes_addEdge hbase with hx | rfl | rfl
        · exact Or.inl hx
        · exact Or.inr ⟨r, List.mem_cons_self r rows, Or.inl rfl⟩
        · exact Or.inr ⟨r, List.mem_cons_self r rows, Or.inr rfl⟩
    · exact Or.inr ⟨r', List.mem_cons_of_mem r hr', hm⟩

/-- Association-list uniqueness from a duplicate-free key projection. -/
theorem nodup_fst_assoc {l : List (α × Embedding)} (h : (l.map Prod.fst).Nodup)
    {p q : α × Embedding} (hp : p ∈ l) (hq : q ∈ l) (hpq : p.1 = q.1) : p = q := by
  obtain ⟨i, hi⟩ := List.mem_iff_get?.mp hp
  obtain ⟨j, hj⟩ := List.mem_iff_get?.mp hq
  exact (nodup_fst_pin h hi hj hpq).2

end NodeLemmas

theorem validEmbeddings_nodup {α : Type} {embs : List (α × Embedding)}
    (h : (embs.map Prod.fst).Nodup) : ((validEmbeddings embs).map Prod.fst).Nodup :=
  (((List.filter_sublist embs).map Prod.fst).nodup) h

/-- With no co-occurrence and no I/O rows, `build_weighted_graph` is exactly
its semantic stage. -/
theorem build_weighted_graph_nil_rows {α : Type} [DecidableEq α]
    (sim : Embedding → Embedding → ℚ) (embs : List (α × Embedding)) :
    build_weighted_graph sim embs [] [] = semanticStage sim embs := by
  by_cases h : (validEmbeddings embs).map Prod.fst = []
  · have hv : validEmbeddings embs = [] := by
      cases hval : validEmbeddings embs with
      | nil => rfl
      | cons a l =>
        rw [hval] at h
        simp at h
    simp only [build_weighted_graph, if_pos h]
    unfold semanticStage semanticPass
    rw [hv]
    rfl
  · simp only [build_weighted_graph, if_neg h, List.foldl_nil]

/-- When at least one embedding is valid, the universal graph is the semantic
pass over the valid prefixed keys. -/
theorem build_universal_graph_eq_pass (sim : Embedding → Embedding → ℚ) (th : ℚ)
    (toolEmbs wfEmbs : List (String × Embedding))
    (h : validEmbeddings (fetch_all_embeddings toolEmbs wfEmbs).1 ≠ []) :
    (build_universal_graph sim th toolEmbs wfEmbs).1
      = semanticPass sim th none (validEmbeddings (fetch_all_embeddings toolEmbs wfEmbs).1)
          ⟨(validEmbeddings (fetch_all_embeddings toolEmbs wfEmbs).1).map Prod.fst, []⟩ := by
  simp only [build_universal_graph]
  rw [apply_ite Prod.fst, if_neg h]

/-! ## Decimal rendering and sub-community id lemmas -/

theorem digitChar_toNat {d : Nat} (h : d < 10) : (digitChar d).toNat = 48 + d := by
  interval_cases d <;> decide

theorem digitsRevVal_natDigitsRev (n : Nat) : digitsRevVal (natDigitsRev n) = n := by
  induction n using Nat.strong_induction_on with
  | _ n ih =>
    match n with
    | 0 =>
      rw [natDigitsRev]
      rfl
    | m + 1 =>
      rw [natDigitsRev, digitsRevVal, ih _ (Nat.div_lt_self (Nat.succ_pos m) (by decide)),
        digitChar_toNat (Nat.mod_lt _ (by decide))]
      omega

theorem natDigitsRev_digits (n : Nat) : ∀ c ∈ natDigitsRev n, 48 ≤ c.toNat ∧ c.toNat ≤ 57 := by
  induction n using Nat.strong_induction_on with
  | _ n ih =>
    match n with
    | 0 =>
      intro c hc
      rw [natDigitsRev] at hc
      exact absurd hc (List.not_mem_nil c)
    | m + 1 =>
      rw [natDigitsRev]
      intro c hc
      rcases List.mem_cons.mp hc with rfl | hc'
      · rw [digitChar_toNat (Nat.mod_lt _ (by decide))]
        have := Nat.mod_lt (m + 1) (show 0 < 10 by decide)
        omega
      · exact ih _ (Nat.div_lt_self (Nat.succ_pos m) (by decide)) c hc'

theorem natRepr_inj {a b : Nat} (h : natRepr a = natRepr b) : a = b := by
  have hval : ∀ n : Nat, n ≠ 0 → natRepr n = ⟨(natDigitsRev n).reverse⟩ := by
    intro n hn
    unfold natRepr
    rw [if_neg hn]
  by_cases ha : a = 0 <;> by_cases hb : b = 0
  · rw [ha, hb]
  · exfalso
    rw [hval b hb] at h
    unfold natRepr at h
    rw [if_pos ha] at h
    have hd := congrArg String.data h
    have h0 : "0".data = ['0'] := rfl
    rw [h0] at hd
    have hrev : natDigitsRev b = ['0'] := by
      have := congrArg List.reverse hd
      simpa using this.symm
    have := digitsRevVal_natDigitsRev b
    rw [hrev] at this
    have hz : digitsRevVal ['0'] = 0 := by decide
    rw [hz] at this
    exact hb this.symm
  · exfalso
    rw [hval a ha] at h
    unfold natRepr at h
    rw [if_pos hb] at h
    have hd := congrArg String.data h
    have h0 : "0".data = ['0'] := rfl
    rw [h0] at hd
    have hrev : natDigitsRev a = ['0'] := by
      have := congrArg List.reverse hd
      simpa using this
    have := digitsRevVal_natDigitsRev a
    rw [hrev] at this
    have hz : digitsRevVal ['0'] = 0 := by decide
    rw [hz] at this
    exact ha this.symm
  · rw [hval a ha, hval b hb] at h
    have hd := congrArg String.data h
    simp only at hd
    have : natDigitsRev a = natDigitsRev b := by
      have := congrArg List.reverse hd
      simpa using this
    have hva := digitsRevVal_natDigitsRev a
    rw [this, digitsRevVal_natDigitsRev b] at hva
    exact hva.symm

theorem natRepr_no_underscore (n : Nat) : ∀ c ∈ (natRepr n).data, c ≠ '_' := by
  unfold natRepr
  by_cases h : n = 0
  · rw [if_pos h]
    intro c hc
    have : c = '0' := by
      have h0 : "0".data = ['0'] := rfl
      rw [h0] at hc
      simpa using hc
    rw [this]
    decide
  · rw [if_neg h]
    intro c hc hu
    have hmem : c ∈ natDigitsRev n := List.mem_reverse.mp hc
    have := natDigitsRev_digits n c hmem
    rw [hu] at this
    have h95 : ('_' : Char).toNat = 95 := rfl
    rw [h95] at this
    omega

theorem underscore_split {a : List Char} {s t : List Char} :
    ∀ {b : List Char}, (∀ c ∈ a, c ≠ '_') → (∀ c ∈ b, c ≠ '_') →
      (∃ s', s = '_' :: s') → (∃ t', t = '_' :: t') →
      a ++ s = b ++ t → a = b ∧ s = t := by
  induction a with
  | nil =>
    intro b _ hb hs ht h
    cases b with
    | nil => exact ⟨rfl, h⟩
    | cons d ds =>
      obtain ⟨s', rfl⟩ := hs
      simp only [List.nil_append, List.cons_append] at h
      injection h with hd _
      exact absurd hd.symm (hb d (List.mem_cons_self d ds))
  | cons c cs ih =>
    intro b ha hb hs ht h
    cases b with
    | nil =>
      obtain ⟨t', rfl⟩ := ht
      simp only [List.cons_append, List.nil_append] at h
      injection h with hc _
      exact absurd hc (ha c (List.mem_cons_self c cs))
    | cons d ds =>
      simp only [List.cons_append] at h
      injection h with hcd hrest
      obtain ⟨h1, h2⟩ := ih (fun x hx => ha x (List.mem_cons_of_mem c hx))
        (fun x hx => hb x (List.mem_cons_of_mem d hx)) hs ht hrest
      exact ⟨by rw [hcd, h1], h2⟩

theorem mkSubId_data (c i : Nat) (tag : String) :
    (mkSubId c tag i).data
      = (natRepr c).data ++ '_' :: (tag.data ++ '_' :: (natRepr i).data) := by
  unfold mkSubId
  simp only [string_append_data]
  simp [List.append_assoc]

/-- The f-string id scheme is injective on its three components, for the two
tags the source uses. -/
theorem mkSubId_inj {c1 c2 i1 i2 : Nat} {t1 t2 : String}
    (h1 : t1 = "T" ∨ t1 = "W") (h2 : t2 = "T" ∨ t2 = "W")
    (h : mkSubId c1 t1 i1 = mkSubId c2 t2 i2) : c1 = c2 ∧ t1 = t2 ∧ i1 = i2 := by
  have hd := congrArg String.data h
  rw [mkSubId_data, mkSubId_data] at hd
  have ht1 : ∀ c ∈ t1.data, c ≠ '_' := by
    rcases h1 with rfl | rfl <;> decide
  have ht2 : ∀ c ∈ t2.data, c ≠ '_' := by
    rcases h2 with rfl | rfl <;> decide
  obtain ⟨hc, hrest⟩ := underscore_split (natRepr_no_underscore c1)
    (natRepr_no_underscore c2) ⟨_, rfl⟩ ⟨_, rfl⟩ hd
  injection hrest with _ hrest2
  obtain ⟨ht, hrest3⟩ := underscore_split ht1 ht2 ⟨_, rfl⟩ ⟨_, rfl⟩ hrest2
  injection hrest3 with _ hdig
  exact ⟨natRepr_inj (string_data_inj hc), string_data_inj ht,
    natRepr_inj (string_data_inj hdig)⟩

/-! ## Claim theorems -/


/-- C2: for every unordered tool pair with any combination of edge-source
evidence (and in particular with evidence from more than one source), the
weight stored by `build_weighted_graph` is exactly the semantic-stage weight
(the cosine similarity, present only above the threshold, and `0` when
absent) plus the matching workflow co-occurrence weights times `1.0` plus the
matching shared-I/O-format weights times `0.5`: each later source adds to an
existing edge's weight, never overwrites it. -/
theorem c2_multi_source_weight_additive {α : Type} [DecidableEq α]
    (sim : Embedding → Embedding → ℚ) (embs : List (α × Embedding))
    (wfRows ioRows : List (EdgeRow α)) (u v : α)
    (hvalid : (validEmbeddings embs).map Prod.fst ≠ [])
    (hsrc : (semanticStage sim embs).hasEdge u v = true
            ∨ wfRows.filter (rowMatches u v) ≠ [] ∨ ioRows.filter (rowMatches u v) ≠ []) :
    (build_weighted_graph sim embs wfRows ioRows).weight? u v
      = some (((semanticStage sim embs).weight? u v).getD 0
              + rowSum wfRows u v * 1 + rowSum ioRows u v * (1/2)) := by
  rw [build_weighted_graph_eq_folds sim embs wfRows ioRows hvalid]
  cases hsem : (semanticStage sim embs).weight? u v with
  | some w₀ =>
    have h₂ := foldl_applyRow_weight?_some 1 (some "workflow") wfRows
      (semanticStage sim embs) u v w₀ hsem
    rw [foldl_applyRow_weight?_some (1/2) (some "io") ioRows _ u v _ h₂]
    simp only [Option.getD_some]
  | none =>
    have hnos : ¬ (semanticStage sim embs).hasEdge u v = true := by
      rw [NXGraph.hasEdge_eq_isSome_weight?, hsem]
      exact Bool.false_ne_true
    by_cases hwf : wfRows.filter (rowMatches u v) = []
    · have hio : ioRows.filter (rowMatches u v) ≠ [] := by
        rcases hsrc with h | h | h
        · exact absurd h hnos
        · exact absurd hwf h
        · exact h
      have h₂ := foldl_applyRow_weight?_none 1 (some "workflow") wfRows
        (semanticStage sim embs) u v hsem
      rw [if_pos hwf] at h₂
      rw [foldl_applyRow_weight?_none (1/2) (some "io") ioRows _ u v h₂, if_neg hio,
        rowSum_eq_zero_of_filter_nil hwf]
      simp only [Option.getD_none]
      congr 1
      ring
    · have h₂ := foldl_applyRow_weight?_none 1 (some "workflow") wfRows
        (semanticStage sim embs) u v hsem
      rw [if_neg hwf] at h₂
      rw [foldl_applyRow_weight?_some (1/2) (some "io") ioRows _ u v _ h₂]
      simp only [Option.getD_none]
      congr 1
      ring

set_option maxRecDepth 1000000 in
unseal Rat.mul Rat.add Rat.inv in
/-- Witness for C2 at a concrete input: tools `a`, `c` with a semantic edge
(similarity 4/5), one co-occurrence row of weight 2 and one I/O row of weight
3. -/
theorem c2_multi_source_weight_additive_witness :
    (validEmbeddings [("a", vec384), ("c", vec384)]).map Prod.fst ≠ [] ∧
    (build_weighted_graph simW [("a", vec384), ("c", vec384)]
        [EdgeRow.mk "a" "c" 2] [EdgeRow.mk "c" "a" 3]).weight? "a" "c"
      = some (((semanticStage simW [("a", vec384), ("c", vec384)]).weight? "a" "c").getD 0
              + rowSum [EdgeRow.mk "a" "c" 2] "a" "c" * 1
              + rowSum [EdgeRow.mk "c" "a" 3] "a" "c" * (1/2)) :=
  ⟨by decide,
   c2_multi_source_weight_additive simW [("a", vec384), ("c", vec384)]
     [EdgeRow.mk "a" "c" 2] [EdgeRow.mk "c" "a" 3] "a" "c" (by decide)
     (Or.inl (by decide))⟩

/-- C3: in both projected graphs (the similarity projector with no other
edge source, and the universal projector), for every upper-triangle position
`r < c` of the valid-embedding list, a semantic edge between the two entities
exists iff their similarity strictly exceeds 0.7; when it does, the stored
weight is exactly that similarity value; and the graph holds no duplicate
edge for any unordered pair (`Good`). -/
theorem c3_semantic_edge_iff_threshold {α : Type} [DecidableEq α]
    (sim : Embedding → Embedding → ℚ) (embs : List (α × Embedding))
    (toolEmbs wfEmbs : List (String × Embedding))
    (hne : (embs.map Prod.fst).Nodup)
    (hnt : (toolEmbs.map Prod.fst).Nodup) (hnw : (wfEmbs.map Prod.fst).Nodup)
    (r c : Nat) (hrc : r < c) (hc : c < (validEmbeddings embs).length)
    (r' c' : Nat) (hrc' : r' < c')
    (hc' : c' < (validEmbeddings (fetch_all_embeddings toolEmbs wfEmbs).1).length) :
    (((build_weighted_graph sim embs [] []).hasEdge
          ((validEmbeddings embs).get ⟨r, lt_trans hrc hc⟩).1
          ((validEmbeddings embs).get ⟨c, hc⟩).1 = true
        ↔ 7/10 < sim ((validEmbeddings embs).get ⟨r, lt_trans hrc hc⟩).2
            ((validEmbeddings embs).get ⟨c, hc⟩).2)
      ∧ (7/10 < sim ((validEmbeddings embs).get ⟨r, lt_trans hrc hc⟩).2
            ((validEmbeddings embs).get ⟨c, hc⟩).2 →
          (build_weighted_graph sim embs [] []).weight?
              ((validEmbeddings embs).get ⟨r, lt_trans hrc hc⟩).1
              ((validEmbeddings embs).get ⟨c, hc⟩).1
            = some (sim ((validEmbeddings embs).get ⟨r, lt_trans hrc hc⟩).2
                ((validEmbeddings embs).get ⟨c, hc⟩).2))
      ∧ (build_weighted_graph sim embs [] []).Good)
    ∧ ((((build_universal_graph sim (7/10) toolEmbs wfEmbs).1).hasEdge
          ((validEmbeddings (fetch_all_embeddings toolEmbs wfEmbs).1).get
            ⟨r', lt_trans hrc' hc'⟩).1
          ((validEmbeddings (fetch_all_embeddings toolEmbs wfEmbs).1).get ⟨c', hc'⟩).1 = true
        ↔ 7/10 < sim ((validEmbeddings (fetch_all_embeddings toolEmbs wfEmbs).1).get
            ⟨r', lt_trans hrc' hc'⟩).2
            ((validEmbeddings (fetch_all_embeddings toolEmbs wfEmbs).1).get ⟨c', hc'⟩).2)
      ∧ (7/10 < sim ((validEmbeddings (fetch_all_embeddings toolEmbs wfEmbs).1).get
            ⟨r', lt_trans hrc' hc'⟩).2
            ((validEmbeddings (fetch_all_embeddings toolEmbs wfEmbs).1).get ⟨c', hc'⟩).2 →
          ((build_universal_graph sim (7/10) toolEmbs wfEmbs).1).weight?
              ((validEmbeddings (fetch_all_embeddings toolEmbs wfEmbs).1).get
                ⟨r', lt_trans hrc' hc'⟩).1
              ((validEmbeddings (fetch_all_embeddings toolEmbs wfEmbs).1).get ⟨c', hc'⟩).1
            = some (sim ((validEmbeddings (fetch_all_embeddings toolEmbs wfEmbs).1).get
                ⟨r', lt_trans hrc' hc'⟩).2
                ((validEmbeddings (fetch_all_embeddings toolEmbs wfEmbs).1).get ⟨c', hc'⟩).2))
      ∧ ((build_universal_graph sim (7/10) toolEmbs wfEmbs).1).Good) := by
  constructor
  · rw [build_weighted_graph_nil_rows sim embs]
    unfold semanticStage
    exact semanticPass_spec sim (7/10) (some "semantic") (validEmbeddings embs)
      (validEmbeddings_nodup hne) r c hrc hc
  · have hvne : validEmbeddings (fetch_all_embeddings toolEmbs wfEmbs).1 ≠ [] := by
      intro hnil
      rw [hnil] at hc'
      simp at hc'
    rw [build_universal_graph_eq_pass sim (7/10) toolEmbs wfEmbs hvne]
    exact semanticPass_spec sim (7/10) none
      (validEmbeddings (fetch_all_embeddings toolEmbs wfEmbs).1)
      (validEmbeddings_nodup (universal_keys_nodup toolEmbs wfEmbs hnt hnw)) r' c' hrc' hc'

set_option maxRecDepth 1000000 in
unseal Rat.mul Rat.add Rat.inv in
/-- Witness for C3 at a concrete input: with constant similarity 4/5 the
similarity projector links tools `a` and `c` and the universal projector
stores weight 4/5 on the cross-type pair `Tool:t`–`Workflow:w`. -/
theorem c3_semantic_edge_iff_threshold_witness :
    (build_weighted_graph simW [("a", vec384), ("c", vec384)] [] []).hasEdge "a" "c" = true
    ∧ ((build_universal_graph simW (7/10) [("t", vec384)] [("w", vec384)]).1).weight?
        "Tool:t" "Workflow:w" = some (4/5) := by
  have h := c3_semantic_edge_iff_threshold simW [("a", vec384), ("c", vec384)]
    [("t", vec384)] [("w", vec384)] (by decide) (by decide) (by decide)
    0 1 (by decide) (by decide) 0 1 (by decide) (by decide)
  exact ⟨h.1.1.mpr (by decide), h.2.2.1 (by decide)⟩

set_option maxRecDepth 1000000 in
unseal Rat.mul Rat.add Rat.inv in
/-- Counterexample to C4 as stated: tool `b` is fetched with a 128-dimension
embedding (≠ 384), yet the similarity projector still includes `b` as a node,
because a workflow co-occurrence row naming `b` makes `add_edge` insert it. -/
theorem c4_dimension_filter_counterexample :
    ("b", vec128) ∈ [("a", vec384), ("b", vec128)]
    ∧ vec128.length ≠ 384
    ∧ "b" ∈ (build_weighted_graph simLow [("a", vec384), ("b", vec128)]
        [EdgeRow.mk "b" "a" 1] []).nodes := by
  refine ⟨by decide, by decide, by decide⟩

/-- C4 amended: an entity whose fetched embedding has length exactly 384 is
always included as a node; inclusion is equivalent to the length check in the
similarity projector whenever no co-occurrence or I/O row names the entity
(the rows can smuggle in a mismatched entity through `add_edge`), and in the
universal projector unconditionally, for tools and workflows alike. -/
theorem c4_dimension_filter_amended {α : Type} [DecidableEq α]
    (sim : Embedding → Embedding → ℚ) (embs : List (α × Embedding))
    (wfRows ioRows : List (EdgeRow α)) (toolEmbs wfEmbs : List (String × Embedding))
    (id : α) (emb : Embedding) (tid : String) (temb : Embedding) (wid : String)
    (wemb : Embedding)
    (hmem : (id, emb) ∈ embs) (hnodup : (embs.map Prod.fst).Nodup)
    (htmem : (tid, temb) ∈ toolEmbs) (hwmem : (wid, wemb) ∈ wfEmbs)
    (hnt : (toolEmbs.map Prod.fst).Nodup) (hnw : (wfEmbs.map Prod.fst).Nodup) :
    (emb.length = 384 → id ∈ (build_weighted_graph sim embs wfRows ioRows).nodes)
    ∧ ((∀ r ∈ wfRows, ¬ rowMentions id r) → (∀ r ∈ ioRows, ¬ rowMentions id r) →
        (id ∈ (build_weighted_graph sim embs wfRows ioRows).nodes ↔ emb.length = 384))
    ∧ (toolKey tid ∈ ((build_universal_graph sim (7/10) toolEmbs wfEmbs).1).nodes
        ↔ temb.length = 384)
    ∧ (workflowKey wid ∈ ((build_universal_graph sim (7/10) toolEmbs wfEmbs).1).nodes
        ↔ wemb.length = 384) := by
  have hvalid_of_len : emb.length = 384 → (id, emb) ∈ validEmbeddings embs := by
    intro hlen
    exact List.mem_filter.mpr ⟨hmem, by simp [expectedDim, hlen]⟩
  have hincl : emb.length = 384 → id ∈ (build_weighted_graph sim embs wfRows ioRows).nodes := by
    intro hlen
    have hid : id ∈ (validEmbeddings embs).map Prod.fst :=
      List.mem_map_of_mem Prod.fst (hvalid_of_len hlen)
    have hval : (validEmbeddings embs).map Prod.fst ≠ [] := by
      intro hnil
      rw [hnil] at hid
      exact List.not_mem_nil id hid
    rw [build_weighted_graph_eq_folds sim embs wfRows ioRows hval]
    refine nodes_foldl_applyRow_superset _ _ ioRows _ ?_
    refine nodes_foldl_applyRow_superset _ _ wfRows _ ?_
    unfold semanticStage
    rw [nodes_semanticPass]
    exact hid
  refine ⟨hincl, ?_, ?_, ?_⟩
  · intro hwf hio
    constructor
    · intro hid
      by_cases hval : (validEmbeddings embs).map Prod.fst = []
      · have hempty : build_weighted_graph sim embs wfRows ioRows = ⟨[], []⟩ := by
          simp only [build_weighted_graph, if_pos hval]
        rw [hempty] at hid
        exact absurd hid (List.not_mem_nil id)
      · rw [build_weighted_graph_eq_folds sim embs wfRows ioRows hval] at hid
        rcases mem_nodes_foldl_applyRow hid with hid2 | ⟨r, hr, hm⟩
        · rcases mem_nodes_foldl_applyRow hid2 with hid3 | ⟨r, hr, hm⟩
          · unfold semanticStage at hid3
            rw [nodes_semanticPass] at hid3
            obtain ⟨p, hp, hpid⟩ := List.mem_map.mp hid3
            have hpe : p = (id, emb) :=
              nodup_fst_assoc hnodup (List.mem_of_mem_filter hp) hmem hpid
            have := List.mem_filter.mp hp
            rw [hpe] at this
            simpa [expectedDim] using this.2
          · exact absurd hm (hwf r hr)
        · exact absurd hm (hio r hr)
    · exact hincl
  · by_cases hvne : validEmbeddings (fetch_all_embeddings toolEmbs wfEmbs).1 = []
    · have hempty : (build_universal_graph sim (7/10) toolEmbs wfEmbs).1
          = (⟨[], []⟩ : NXGraph String) := by
        simp only [build_universal_graph]
        rw [apply_ite Prod.fst, if_pos hvne]
      rw [hempty]
      constructor
      · intro hid
        exact absurd hid (List.not_mem_nil _)
      · intro hlen
        have : (toolKey tid, temb) ∈ validEmbeddings (fetch_all_embeddings toolEmbs wfEmbs).1 := by
          refine List.mem_filter.mpr ⟨?_, by simp [expectedDim, hlen]⟩
          exact List.mem_append.mpr (Or.inl
            (List.mem_map.mpr ⟨(tid, temb), htmem, rfl⟩))
        rw [hvne] at this
        exact absurd this (List.not_mem_nil _)
    · rw [build_universal_graph_eq_pass sim (7/10) toolEmbs wfEmbs hvne,
        nodes_semanticPass]
      constructor
      · intro hid
        obtain ⟨p, hp, hpid⟩ := List.mem_map.mp hid
        have hpf := List.mem_filter.mp hp
        rcases List.mem_append.mp hpf.1 with hpt | hpw
        · obtain ⟨x, hx, hxe⟩ := List.mem_map.mp hpt
          have hxid : x.1 = tid := toolKey_injective (by rw [← hpid, ← hxe])
          have hxeq : x = (tid, temb) :=
            nodup_fst_assoc hnt hx htmem hxid
          rw [hxeq] at hxe
          rw [← hxe] at hpf
          simpa [expectedDim] using hpf.2
        · obtain ⟨y, _, hye⟩ := List.mem_map.mp hpw
          exact absurd ((congrArg Prod.fst hye).trans hpid).symm
            (toolKey_ne_workflowKey tid y.1)
      · intro hlen
        refine List.mem_map.mpr ⟨(toolKey tid, temb), ?_, rfl⟩
        refine List.mem_filter.mpr ⟨?_, by simp [expectedDim, hlen]⟩
        exact List.mem_append.mpr (Or.inl (List.mem_map.mpr ⟨(tid, temb), htmem, rfl⟩))
  · by_cases hvne : validEmbeddings (fetch_all_embeddings toolEmbs wfEmbs).1 = []
    · have hempty : (build_universal_graph sim (7/10) toolEmbs wfEmbs).1
          = (⟨[], []⟩ : NXGraph String) := by
        simp only [build_universal_graph]
        rw [apply_ite Prod.fst, if_pos hvne]
      rw [hempty]
      constructor
      · intro hid
        exact absurd hid (List.not_mem_nil _)
      · intro hlen
        have : (workflowKey wid, wemb)
            ∈ validEmbeddings (fetch_all_embeddings toolEmbs wfEmbs).1 := by
          refine List.mem_filter.mpr ⟨?_, by simp [expectedDim, hlen]⟩
          exact List.mem_append.mpr (Or.inr
            (List.mem_map.mpr ⟨(wid, wemb), hwmem, rfl⟩))
        rw [hvne] at this
        exact absurd this (List.not_mem_nil _)
    · rw [build_universal_graph_eq_pass sim (7/10) toolEmbs wfEmbs hvne,
        nodes_semanticPass]
      constructor
      · intro hid
        obtain ⟨p, hp, hpid⟩ := List.mem_map.mp hid
        have hpf := List.mem_filter.mp hp
        rcases List.mem_append.mp hpf.1 with hpt | hpw
        · obtain ⟨x, _, hxe⟩ := List.mem_map.mp hpt
          exact absurd (hpid ▸ congrArg Prod.fst hxe)
            (toolKey_ne_workflowKey x.1 wid)
        · obtain ⟨y, hy, hye⟩ := List.mem_map.mp hpw
          have hyid : y.1 = wid := workflowKey_injective (by rw [← hpid, ← hye])
          have hyeq : y = (wid, wemb) :=
            nodup_fst_assoc hnw hy hwmem hyid
          rw [hyeq] at hye
          rw [← hye] at hpf
          simpa [expectedDim] using hpf.2
      · intro hlen
        refine List.mem_map.mpr ⟨(workflowKey wid, wemb), ?_, rfl⟩
        refine List.mem_filter.mpr ⟨?_, by simp [expectedDim, hlen]⟩
        exact List.mem_append.mpr (Or.inr (List.mem_map.mpr ⟨(wid, wemb), hwmem, rfl⟩))

set_option maxRecDepth 1000000 in
unseal Rat.mul Rat.add Rat.inv in
/-- Witness for the amended C4 at a concrete input: with no relational rows,
tool `a` (384-dim) is included and its inclusion is equivalent to the length
check; tool key `Tool:t` and workflow key `Workflow:w` likewise. -/
theorem c4_dimension_filter_amended_witness :
    "a" ∈ (build_weighted_graph simLow [("a", vec384), ("b", vec128)] [] []).nodes
    ∧ ("b" ∈ (build_weighted_graph simLow [("a", vec384), ("b", vec128)] [] []).nodes
        ↔ vec128.length = 384)
    ∧ (toolKey "t" ∈ ((build_universal_graph simLow (7/10) [("t", vec384)]
        [("w", vec128)]).1).nodes ↔ vec384.length = 384) := by
  have h₁ := c4_dimension_filter_amended simLow [("a", vec384), ("b", vec128)] [] []
    [("t", vec384)] [("w", vec128)] "a" vec384 "t" vec384 "w" vec128
    (by decide) (by decide) (by decide) (by decide) (by decide) (by decide)
  have h₂ := c4_dimension_filter_amended simLow [("a", vec384), ("b", vec128)] [] []
    [("t", vec384)] [("w", vec128)] "b" vec128 "t" vec384 "w" vec128
    (by decide) (by decide) (by decide) (by decide) (by decide) (by decide)
  exact ⟨h₁.1 (by decide),
    h₂.2.1 (fun r hr => absurd hr (List.not_mem_nil r))
      (fun r hr => absurd hr (List.not_mem_nil r)),
    h₁.2.2.1⟩

/-- C8: every row returned by a hybrid search invoked with a (non-empty)
input-format filter stems from a vector hit that accepts some input format
whose name contains the filter — a hit failing the structural predicate
contributes no row, no matter its score. -/
theorem c8_hybrid_filter_is_conjunctive (vectorIndex : Embedding → Nat → List ToolHit)
    (accepts : List (String × String)) (emb : Embedding) (fmt : String) (topK : Nat)
    (hfmt : fmt ≠ "") :
    ∀ row ∈ hybrid_search vectorIndex accepts emb (some fmt) topK,
      ∃ h ∈ vectorIndex emb topK,
        row = HybridRow.mk h.name h.description h.score
          ∧ ∃ a ∈ accepts, a.1 = h.id ∧ strContains a.2 fmt = true := by
  intro row hrow
  simp only [hybrid_search] at hrow
  rw [if_neg hfmt] at hrow
  obtain ⟨h, hh, hrow2⟩ := List.mem_flatMap.mp hrow
  obtain ⟨a, ha, hae⟩ := List.mem_map.mp hrow2
  have haf := List.mem_filter.mp ha
  have hcond := haf.2
  rw [Bool.and_eq_true, decide_eq_true_eq] at hcond
  exact ⟨h, hh, hae.symm, a, haf.1, hcond.1, hcond.2⟩

unseal Rat.mul Rat.add Rat.inv in
/-- Witness for C8 at the scenario-D fixture: the row for `t1` (which accepts
fastq) is traced back to a fastq-accepting hit; `t2` with the higher score
yields no row at all. -/
theorem c8_hybrid_filter_is_conjunctive_witness :
    (∃ h ∈ vidxD [1] 5,
      HybridRow.mk "T1" "d1" (9/10) = HybridRow.mk h.name h.description h.score
        ∧ ∃ a ∈ acceptsD, a.1 = h.id ∧ strContains a.2 "fastq" = true)
    ∧ hybrid_search vidxD acceptsD [1] (some "fastq") 5 = [HybridRow.mk "T1" "d1" (9/10)] :=
  ⟨c8_hybrid_filter_is_conjunctive vidxD acceptsD [1] "fastq" 5 (by decide)
      (HybridRow.mk "T1" "d1" (9/10)) (by decide),
   by decide⟩

/-- C9: local search returns the empty sequence (no exception) both when the
query-embedding collaborator fails (returns the empty vector) and when the
vector search yields zero matches. -/
theorem c9_local_search_degrades_to_empty (vectorIndex : Embedding → Nat → List ToolHit)
    (ctx : String → Option ToolContext) (emb : Embedding) (topK : Nat) :
    local_search vectorIndex ctx [] topK = .ok []
    ∧ (vectorIndex emb topK = [] → local_search vectorIndex ctx emb topK = .ok []) := by
  constructor
  · rfl
  · intro hv
    unfold local_search
    by_cases he : emb = []
    · rw [if_pos he]
    · rw [if_neg he, hv]
      rfl

/-- Witness for C9 at concrete inputs: a failed embedding and an
empty-matching vector index both produce `.ok []`. -/
theorem c9_local_search_degrades_to_empty_witness :
    local_search (fun _ _ => []) (fun _ => none) [] 3 = .ok []
    ∧ local_search (fun _ _ => []) (fun _ => none) [1] 3 = .ok [] :=
  ⟨(c9_local_search_degrades_to_empty (fun _ _ => []) (fun _ => none) [1] 3).1,
   (c9_local_search_degrades_to_empty (fun _ _ => []) (fun _ => none) [1] 3).2 rfl⟩

/-- C10: when no `Community` node exists, global search returns the
explanatory string rather than consulting the generative collaborator or
raising. -/
theorem c10_global_search_no_communities (llm : String → String) (query : String) :
    global_search llm [] query = "No communities found in the graph." := rfl

/-- C1 (code bug): `GraphProjector.build_weighted_graph` accepts no
`filter_tool_ids` keyword, so the call the hierarchical detector makes for
every Level-1 community with at least one tool member raises `TypeError`:
the Level-2 body aborts before any filtered graph is built or partitioned at
resolution 1.2. -/
theorem c1_filter_kwarg_raises_type_error (sim : Embedding → Embedding → ℚ)
    (part : NXGraph String → ℚ → List (String × Nat)) (s : Store) (univ : NXGraph String)
    (commId : Nat) (tools wfs : List String) (htools : tools ≠ []) :
    callBuildWeightedGraph sim s.toolEmbs s.wfRows s.ioRows ["filter_tool_ids"]
      = .error PyErr.typeError
    ∧ level2ForCommunity sim part s univ (commId, tools, wfs) = .error PyErr.typeError := by
  refine ⟨rfl, ?_⟩
  simp only [level2ForCommunity]
  rw [if_pos htools]
  rfl

set_option maxRecDepth 1000000 in
unseal Rat.mul Rat.add Rat.inv in
/-- Witness for C1 at a concrete input: the store holding tool `a` yields a
Level-1 community with a tool member, and the whole hierarchical run aborts
with `TypeError` right after cleanup. -/
theorem c1_filter_kwarg_raises_type_error_witness :
    (["a"] : List String) ≠ []
    ∧ level2ForCommunity simW partFix (cleanupStore storeFix)
        (build_universal_graph simW (7/10) storeFix.toolEmbs storeFix.wfEmbs).1
        (0, ["a"], ["w1"]) = .error PyErr.typeError
    ∧ run_hierarchical_detection simW partFix storeFix
        = .error (PyErr.typeError, cleanupStore storeFix) :=
  ⟨by decide,
   (c1_filter_kwarg_raises_type_error simW partFix (cleanupStore storeFix)
      (build_universal_graph simW (7/10) storeFix.toolEmbs storeFix.wfEmbs).1
      0 ["a"] ["w1"] (by decide)).2,
   by rfl⟩

/-! ## Persistence lemmas for the hierarchical detector -/

theorem cleanupStore_idem (s : Store) : cleanupStore (cleanupStore s) = cleanupStore s := rfl

theorem membershipClean_cleanupStore (s : Store) : membershipClean (cleanupStore s) :=
  ⟨rfl, rfl, rfl, rfl, rfl, rfl, rfl, rfl, rfl⟩

theorem mem_setAssoc {κ β : Type} [DecidableEq κ] {l : List (κ × β)} {k : κ} {v : β}
    {p : κ × β} (h : p ∈ setAssoc l k v) : p ∈ l ∨ p = (k, v) := by
  unfold setAssoc at h
  by_cases hc : l.any (fun q => decide (q.1 = k)) = true
  · rw [if_pos hc] at h
    obtain ⟨q, hq, hqe⟩ := List.mem_map.mp h
    by_cases hqk : q.1 = k
    · rw [if_pos hqk] at hqe
      exact Or.inr hqe.symm
    · rw [if_neg hqk] at hqe
      exact Or.inl (hqe ▸ hq)
  · rw [if_neg hc] at h
    rcases List.mem_append.mp h with h | h
    · exact Or.inl h
    · exact Or.inr (List.mem_singleton.mp h)

theorem mem_setAssoc_of_ne {κ β : Type} [DecidableEq κ] {l : List (κ × β)} {k : κ} {v : β}
    {p : κ × β} (hp : p ∈ l) (hne : p.1 ≠ k) : p ∈ setAssoc l k v := by
  unfold setAssoc
  by_cases hc : l.any (fun q => decide (q.1 = k)) = true
  · rw [if_pos hc]
    exact List.mem_map.mpr ⟨p, hp, by rw [if_neg hne]⟩
  · rw [if_neg hc]
    exact List.mem_append.mpr (Or.inl hp)

theorem mem_mergeNode {κ : Type} [DecidableEq κ] {l : List κ} {k x : κ}
    (h : x ∈ mergeNode l k) : x ∈ l ∨ x = k := by
  unfold mergeNode at h
  by_cases hc : k ∈ l
  · rw [if_pos hc] at h
    exact Or.inl h
  · rw [if_neg hc] at h
    rcases List.mem_append.mp h with h | h
    · exact Or.inl h
    · exact Or.inr (List.mem_singleton.mp h)

theorem membershipsFrom_applyToolUpdate {upd : List HierUpdate} {s : Store}
    (h : membershipsFromUpdates upd s) {u : HierUpdate} (hu : u ∈ upd)
    (hut : u.utype = "Tool") : membershipsFromUpdates upd (applyToolUpdate s u) := by
  unfold applyToolUpdate
  by_cases hid : u.id ∈ s.toolIds
  · rw [if_pos hid]
    obtain ⟨h1, h2, h3, h4, h5, h6, h7, h8, h9⟩ := h
    refine ⟨?_, ?_, h3, h4, ?_, ?_, h7, h8, h9⟩
    · intro p hp
      rcases mem_setAssoc hp with hp | rfl
      · exact h1 p hp
      · exact ⟨u, hu, hut, rfl, rfl⟩
    · intro p hp
      rcases mem_setAssoc hp with hp | rfl
      · exact h2 p hp
      · exact ⟨u, hu, hut, rfl, rfl⟩
    · intro c hc
      rcases mem_mergeNode hc with hc | rfl
      · exact h5 c hc
      · exact ⟨u, hu, rfl⟩
    · intro i hi
      rcases mem_mergeNode hi with hi | rfl
      · exact h6 i hi
      · exact ⟨u, hu, rfl⟩
  · rw [if_neg hid]
    exact h

theorem membershipsFrom_applyWfUpdate {upd : List HierUpdate} {s : Store}
    (h : membershipsFromUpdates upd s) {u : HierUpdate} (hu : u ∈ upd)
    (hut : u.utype = "Workflow") : membershipsFromUpdates upd (applyWfUpdate s u) := by
  unfold applyWfUpdate
  by_cases hid : u.id ∈ s.wfIds
  · rw [if_pos hid]
    obtain ⟨h1, h2, h3, h4, h5, h6, h7, h8, h9⟩ := h
    refine ⟨h1, h2, ?_, ?_, ?_, ?_, h7, h8, h9⟩
    · intro p hp
      rcases mem_setAssoc hp with hp | rfl
      · exact h3 p hp
      · exact ⟨u, hu, hut, rfl, rfl⟩
    · intro p hp
      rcases mem_setAssoc hp with hp | rfl
      · exact h4 p hp
      · exact ⟨u, hu, hut, rfl, rfl⟩
    · intro c hc
      rcases mem_mergeNode hc with hc | rfl
      · exact h5 c hc
      · exact ⟨u, hu, rfl⟩
    · intro i hi
      rcases mem_mergeNode hi with hi | rfl
      · exact h6 i hi
      · exact ⟨u, hu, rfl⟩
  · rw [if_neg hid]
    exact h

theorem membershipsFrom_foldl_tool {upd : List HierUpdate} (batch : List HierUpdate)
    (s : Store) (hb : ∀ u ∈ batch, u ∈ upd ∧ u.utype = "Tool")
    (h : membershipsFromUpdates upd s) :
    membershipsFromUpdates upd (batch.foldl applyToolUpdate s) := by
  induction batch generalizing s with
  | nil => exact h
  | cons u batch ih =>
    rw [List.foldl_cons]
    exact ih _ (fun x hx => hb x (List.mem_cons_of_mem u hx))
      (membershipsFrom_applyToolUpdate h (hb u (List.mem_cons_self u batch)).1
        (hb u (List.mem_cons_self u batch)).2)

theorem membershipsFrom_foldl_wf {upd : List HierUpdate} (batch : List HierUpdate)
    (s : Store) (hb : ∀ u ∈ batch, u ∈ upd ∧ u.utype = "Workflow")
    (h : membershipsFromUpdates upd s) :
    membershipsFromUpdates upd (batch.foldl applyWfUpdate s) := by
  induction batch generalizing s with
  | nil => exact h
  | cons u batch ih =>
    rw [List.foldl_cons]
    exact ih _ (fun x hx => hb x (List.mem_cons_of_mem u hx))
      (membershipsFrom_applyWfUpdate h (hb u (List.mem_cons_self u batch)).1
        (hb u (List.mem_cons_self u batch)).2)

theorem membershipsFrom_persistUpdates (s : Store) (upd : List HierUpdate)
    (hclean : membershipClean s) : membershipsFromUpdates upd (persistUpdates s upd) := by
  obtain ⟨h1, h2, h3, h4, h5, h6, h7, h8, h9⟩ := hclean
  have hbase : membershipsFromUpdates upd s :=
    ⟨fun p hp => absurd (h4 ▸ hp) (List.not_mem_nil p),
     fun p hp => absurd (h5 ▸ hp) (List.not_mem_nil p),
     fun p hp => absurd (h7 ▸ hp) (List.not_mem_nil p),
     fun p hp => absurd (h8 ▸ hp) (List.not_mem_nil p),
     fun c hc => absurd (h1 ▸ hc) (List.not_mem_nil c),
     fun i hi => absurd (h2 ▸ hi) (List.not_mem_nil i),
     h3, h6, h9⟩
  unfold persistUpdates
  refine membershipsFrom_foldl_wf _ _
    (fun u hu => ⟨List.mem_of_mem_filter hu, by simpa using (List.mem_filter.mp hu).2⟩) ?_
  exact membershipsFrom_foldl_tool _ _
    (fun u hu => ⟨List.mem_of_mem_filter hu, by simpa using (List.mem_filter.mp hu).2⟩) hbase

/-- C5: a hierarchical run first deletes all prior `Community`/`SubCommunity`
nodes and clears every membership property (the run is a function of the
cleaned store only); an aborted run leaves exactly the cleaned store; a
completed run's store is the cleaned store plus writes whose membership
content all stems from this run's update batch — no assignment of an earlier
run survives. -/
theorem c5_cleanup_precedes_rebuild (sim : Embedding → Embedding → ℚ)
    (part : NXGraph String → ℚ → List (String × Nat)) (s : Store) :
    run_hierarchical_detection sim part s
        = run_hierarchical_detection sim part (cleanupStore s)
    ∧ membershipClean (cleanupStore s)
    ∧ (∀ e s', run_hierarchical_detection sim part s = .error (e, s') →
        s' = cleanupStore s ∧ membershipClean s')
    ∧ (∀ s', run_hierarchical_detection sim part s = .ok s' →
        ∃ upd, hierarchicalUpdates sim part (cleanupStore s) = .ok upd
          ∧ s' = persistUpdates (cleanupStore s) upd
          ∧ membershipsFromUpdates upd s') := by
  refine ⟨?_, membershipClean_cleanupStore s, ?_, ?_⟩
  · simp only [run_hierarchical_detection, cleanupStore_idem]
  · intro e s' h
    simp only [run_hierarchical_detection] at h
    cases hupd : hierarchicalUpdates sim part (cleanupStore s) with
    | error e0 =>
      rw [hupd] at h
      injection h with hpair
      have hs : s' = cleanupStore s := (congrArg Prod.snd hpair).symm
      exact ⟨hs, hs ▸ membershipClean_cleanupStore s⟩
    | ok upd =>
      rw [hupd] at h
      exact absurd h (by simp)
  · intro s' h
    simp only [run_hierarchical_detection] at h
    cases hupd : hierarchicalUpdates sim part (cleanupStore s) with
    | error e0 =>
      rw [hupd] at h
      exact absurd h (by simp)
    | ok upd =>
      rw [hupd] at h
      injection h with hres
      exact ⟨upd, rfl, hres.symm,
        hres ▸ membershipsFrom_persistUpdates (cleanupStore s) upd
          (membershipClean_cleanupStore s)⟩

set_option maxRecDepth 1000000 in
unseal Rat.mul Rat.add Rat.inv in
/-- Witness for C5 at concrete inputs: the aborted run on the tool store ends
in the cleaned store with all stale membership removed; the completed run on
the workflow-only store is the persistence of this run's single update over
the cleaned store, its memberships all drawn from that update. -/
theorem c5_cleanup_precedes_rebuild_witness :
    (cleanupStore storeFix = cleanupStore storeFix ∧ membershipClean (cleanupStore storeFix))
    ∧ (∃ upd, hierarchicalUpdates simW partFix (cleanupStore storeWf) = .ok upd
        ∧ persistUpdates (cleanupStore storeWf)
            [HierUpdate.mk "Workflow" "w1" 0 (mkSubId 0 "W" 0)]
          = persistUpdates (cleanupStore storeWf) upd
        ∧ membershipsFromUpdates upd
            (persistUpdates (cleanupStore storeWf)
              [HierUpdate.mk "Workflow" "w1" 0 (mkSubId 0 "W" 0)])) :=
  ⟨(c5_cleanup_precedes_rebuild simW partFix storeFix).2.2.1 PyErr.typeError
      (cleanupStore storeFix) (by rfl),
   (c5_cleanup_precedes_rebuild simW partFix storeWf).2.2.2
      (persistUpdates (cleanupStore storeWf)
        [HierUpdate.mk "Workflow" "w1" 0 (mkSubId 0 "W" 0)]) (by rfl)⟩

/-! ## Update-shape lemmas for the hierarchical run -/

theorem foldlM_wfStep_shape {commId : Nat} (pw : List (String × Nat)) :
    ∀ {acc out : List HierUpdate}, pw.foldlM (wfStep commId) acc = .ok out →
      (∀ u ∈ acc, UpdShape u) → ∀ u ∈ out, UpdShape u := by
  induction pw with
  | nil =>
    intro acc out h hacc
    have hao : acc = out := Except.ok.inj h
    exact hao ▸ hacc
  | cons p pw ih =>
    intro acc out h hacc
    rw [List.foldlM_cons] at h
    cases hstep : wfStep commId acc p with
    | error e =>
      rw [hstep] at h
      exact Except.noConfusion h
    | ok acc2 =>
      rw [hstep] at h
      refine ih h ?_
      unfold wfStep at hstep
      cases hsplit : splitColonIdx1 p.1 with
      | none =>
        rw [hsplit] at hstep
        exact Except.noConfusion hstep
      | some wid =>
        rw [hsplit] at hstep
        have hacc2 := Except.ok.inj hstep
        intro u hu
        rw [← hacc2] at hu
        rcases List.mem_append.mp hu with hu | hu
        · exact hacc u hu
        · rw [List.mem_singleton.mp hu]
          exact ⟨Or.inr rfl, p.2, rfl⟩

theorem level2ForCommunity_shape {sim : Embedding → Embedding → ℚ}
    {part : NXGraph String → ℚ → List (String × Nat)} {s : Store} {univ : NXGraph String}
    {entry : Nat × List String × List String} {l : List HierUpdate}
    (h : level2ForCommunity sim part s univ entry = .ok l) : ∀ u ∈ l, UpdShape u := by
  unfold level2ForCommunity at h
  cases hTool : (if entry.2.1 ≠ [] then
      match callBuildWeightedGraph sim s.toolEmbs s.wfRows s.ioRows ["filter_tool_ids"] with
      | Except.error e => Except.error e
      | Except.ok toolGraph =>
        Except.ok ((runLeidenOnGraph part toolGraph (12/10)).map
          (fun p => HierUpdate.mk "Tool" p.1 entry.1 (mkSubId entry.1 "T" p.2)))
    else Except.ok [] : Except PyErr (List HierUpdate)) with
  | error e =>
    rw [hTool] at h
    exact Except.noConfusion h
  | ok toolUpdates =>
    rw [hTool] at h
    have htU : ∀ u ∈ toolUpdates, UpdShape u := by
      by_cases h1 : entry.2.1 ≠ []
      · rw [if_pos h1] at hTool
        rw [show callBuildWeightedGraph sim s.toolEmbs s.wfRows s.ioRows ["filter_tool_ids"]
            = Except.error PyErr.typeError from rfl] at hTool
        exact Except.noConfusion hTool
      · rw [if_neg h1] at hTool
        have := Except.ok.inj hTool
        rw [← this]
        intro u hu
        exact absurd hu (List.not_mem_nil u)
    cases hWf : (if entry.2.2 ≠ [] then
        (runLeidenOnGraph part (univ.subgraph (entry.2.2.map workflowKey)) 1).foldlM
          (wfStep entry.1) []
      else Except.ok [] : Except PyErr (List HierUpdate)) with
    | error e =>
      rw [hWf] at h
      exact Except.noConfusion h
    | ok wfUpdates =>
      rw [hWf] at h
      have hl : toolUpdates ++ wfUpdates = l := Except.ok.inj h
      have hwU : ∀ u ∈ wfUpdates, UpdShape u := by
        by_cases h2 : entry.2.2 ≠ []
        · rw [if_pos h2] at hWf
          exact foldlM_wfStep_shape _ hWf (fun u hu => absurd hu (List.not_mem_nil u))
        · rw [if_neg h2] at hWf
          have := Except.ok.inj hWf
          rw [← this]
          intro u hu
          exact absurd hu (List.not_mem_nil u)
      intro u hu
      rw [← hl] at hu
      rcases List.mem_append.mp hu with hu | hu
      · exact htU u hu
      · exact hwU u hu

theorem foldlM_level2_shape {sim : Embedding → Embedding → ℚ}
    {part : NXGraph String → ℚ → List (String × Nat)} {s : Store} {univ : NXGraph String}
    (comms : List (Nat × List String × List String)) :
    ∀ (acc : List HierUpdate) {upd : List HierUpdate}, (∀ u ∈ acc, UpdShape u) →
      comms.foldlM
        (fun a entry => (level2ForCommunity sim part s univ entry).map (a ++ ·)) acc
        = .ok upd →
      ∀ u ∈ upd, UpdShape u := by
  induction comms with
  | nil =>
    intro acc upd hacc h
    have hao : acc = upd := Except.ok.inj h
    exact hao ▸ hacc
  | cons entry comms ih =>
    intro acc upd hacc h
    rw [List.foldlM_cons] at h
    cases hl : level2ForCommunity sim part s univ entry with
    | error e =>
      rw [hl] at h
      exact Except.noConfusion h
    | ok l =>
      rw [hl] at h
      refine ih (acc ++ l) ?_ h
      intro u hu
      rcases List.mem_append.mp hu with hu | hu
      · exact hacc u hu
      · exact level2ForCommunity_shape hl u hu

theorem hierarchicalUpdates_shape {sim : Embedding → Embedding → ℚ}
    {part : NXGraph String → ℚ → List (String × Nat)} {s : Store} {upd : List HierUpdate}
    (h : hierarchicalUpdates sim part s = .ok upd) : ∀ u ∈ upd, UpdShape u := by
  simp only [hierarchicalUpdates] at h
  cases hg : groupCommunities (runLeidenOnGraph part
      (build_universal_graph sim (7/10) s.toolEmbs s.wfEmbs).1 1) with
  | error e =>
    rw [hg] at h
    exact Except.noConfusion h
  | ok comms =>
    rw [hg] at h
    exact foldlM_level2_shape comms [] (fun u hu => absurd hu (List.not_mem_nil u)) h

/-- C6: every sub-community assignment a hierarchical run produces carries an
id of the form `{parent_community_id}_{T|W}_{local_cluster_index}`, and these
ids are globally unique: two assignments share an id only when they share the
parent community id, the member type, and the local cluster index. -/
theorem c6_subcommunity_ids_unique (sim : Embedding → Embedding → ℚ)
    (part : NXGraph String → ℚ → List (String × Nat)) (s : Store) (upd : List HierUpdate)
    (hok : hierarchicalUpdates sim part (cleanupStore s) = .ok upd) :
    (∀ u ∈ upd, (u.utype = "Tool" ∨ u.utype = "Workflow")
      ∧ ∃ i, u.subId = mkSubId u.commId (typeTag u.utype) i)
    ∧ (∀ u₁ ∈ upd, ∀ u₂ ∈ upd, ∀ i₁ i₂,
        u₁.subId = mkSubId u₁.commId (typeTag u₁.utype) i₁ →
        u₂.subId = mkSubId u₂.commId (typeTag u₂.utype) i₂ →
        u₁.subId = u₂.subId →
        u₁.commId = u₂.commId ∧ u₁.utype = u₂.utype ∧ i₁ = i₂) := by
  have hshape := hierarchicalUpdates_shape hok
  refine ⟨hshape, ?_⟩
  intro u₁ h₁ u₂ h₂ i₁ i₂ hs₁ hs₂ heq
  have ht₁ := (hshape u₁ h₁).1
  have ht₂ := (hshape u₂ h₂).1
  have htag₁ : typeTag u₁.utype = "T" ∨ typeTag u₁.utype = "W" := by
    rcases ht₁ with h | h <;> rw [h]
    · exact Or.inl rfl
    · exact Or.inr rfl
  have htag₂ : typeTag u₂.utype = "T" ∨ typeTag u₂.utype = "W" := by
    rcases ht₂ with h | h <;> rw [h]
    · exact Or.inl rfl
    · exact Or.inr rfl
  have hmk : mkSubId u₁.commId (typeTag u₁.utype) i₁
      = mkSubId u₂.commId (typeTag u₂.utype) i₂ := by
    rw [← hs₁, ← hs₂]
    exact heq
  obtain ⟨hc, ht, hi⟩ := mkSubId_inj htag₁ htag₂ hmk
  refine ⟨hc, ?_, hi⟩
  rcases ht₁ with hu₁ | hu₁ <;> rcases ht₂ with hu₂ | hu₂
  · rw [hu₁, hu₂]
  · exfalso
    rw [hu₁, hu₂] at ht
    exact absurd ht (by decide)
  · exfalso
    rw [hu₁, hu₂] at ht
    exact absurd ht (by decide)
  · rw [hu₁, hu₂]

set_option maxRecDepth 1000000 in
unseal Rat.mul Rat.add Rat.inv in
/-- Witness for C6 at a concrete run: the single produced assignment has the
encoded `{parent}_{W}_{index}` form, and equal ids force equal components. -/
theorem c6_subcommunity_ids_unique_witness :
    ((HierUpdate.mk "Workflow" "w1" 0 "0_W_0").utype = "Tool"
      ∨ (HierUpdate.mk "Workflow" "w1" 0 "0_W_0").utype = "Workflow")
    ∧ (∃ i, (HierUpdate.mk "Workflow" "w1" 0 "0_W_0").subId
        = mkSubId (HierUpdate.mk "Workflow" "w1" 0 "0_W_0").commId
            (typeTag (HierUpdate.mk "Workflow" "w1" 0 "0_W_0").utype) i)
    ∧ (0 : Nat) = 0 := by
  have h := c6_subcommunity_ids_unique simW partFix storeWf
    [HierUpdate.mk "Workflow" "w1" 0 "0_W_0"] (by rfl)
  have hu := h.1 (HierUpdate.mk "Workflow" "w1" 0 "0_W_0") (List.mem_singleton.mpr rfl)
  exact ⟨hu.1, hu.2,
    (h.2 _ (List.mem_singleton.mpr rfl) _ (List.mem_singleton.mpr rfl) 0 0
      (by rfl) (by rfl) rfl).2.2⟩

/-! ## Frame lemmas for the flat detector -/

theorem leidenStep_only_toolCommunityId (s : Store) (q : String × Nat) :
    ∃ tc, leidenStep s q = { s with toolCommunityId := tc } := by
  unfold leidenStep
  by_cases h : q.1 ∈ s.toolIds
  · rw [if_pos h]
    exact ⟨_, rfl⟩
  · rw [if_neg h]
    exact ⟨s.toolCommunityId, rfl⟩

theorem foldl_leidenStep_only_toolCommunityId (batch : List (String × Nat)) (s : Store) :
    ∃ tc, batch.foldl leidenStep s = { s with toolCommunityId := tc } := by
  induction batch generalizing s with
  | nil => exact ⟨s.toolCommunityId, rfl⟩
  | cons q batch ih =>
    rw [List.foldl_cons]
    obtain ⟨tc₀, hs₀⟩ := leidenStep_only_toolCommunityId s q
    obtain ⟨tc₁, h₁⟩ := ih (leidenStep s q)
    rw [h₁, hs₀]
    exact ⟨tc₁, rfl⟩

theorem mem_foldl_leidenStep (batch : List (String × Nat)) (s : Store) {p : String × Nat}
    (hp : p ∈ s.toolCommunityId) (hq : ∀ q ∈ batch, q.1 ≠ p.1) :
    p ∈ (batch.foldl leidenStep s).toolCommunityId := by
  induction batch generalizing s with
  | nil => exact hp
  | cons q batch ih =>
    rw [List.foldl_cons]
    refine ih _ ?_ (fun x hx => hq x (List.mem_cons_of_mem q hx))
    unfold leidenStep
    by_cases h : q.1 ∈ s.toolIds
    · rw [if_pos h]
      exact mem_setAssoc_of_ne hp (Ne.symm (hq q (List.mem_cons_self q batch)))
    · rw [if_neg h]
      exact hp

/-- C7: the `--build` pipeline's community stage is the flat single-level
detector, which writes only the `communityId` property on `Tool` nodes:
`Community`/`SubCommunity`/`Topic` nodes, all `Workflow` properties, all
sub-community and topic properties, and the store's data tables are
untouched, and a `communityId` left by an earlier run on a tool the new
partition does not mention survives — no cleanup is performed. -/
theorem c7_build_pipeline_flat_detector (sim : Embedding → Embedding → ℚ)
    (part : NXGraph String → ℚ → List (String × Nat)) (s : Store) :
    buildPipelineCommunityStage sim part s = run_leiden sim part s
    ∧ (run_leiden sim part s).communityNodes = s.communityNodes
    ∧ (run_leiden sim part s).subCommunityNodes = s.subCommunityNodes
    ∧ (run_leiden sim part s).topicNodes = s.topicNodes
    ∧ (run_leiden sim part s).toolSubCommunityId = s.toolSubCommunityId
    ∧ (run_leiden sim part s).toolTopicId = s.toolTopicId
    ∧ (run_leiden sim part s).wfCommunityId = s.wfCommunityId
    ∧ (run_leiden sim part s).wfSubCommunityId = s.wfSubCommunityId
    ∧ (run_leiden sim part s).wfTopicId = s.wfTopicId
    ∧ (run_leiden sim part s).toolIds = s.toolIds
    ∧ (run_leiden sim part s).wfIds = s.wfIds
    ∧ (run_leiden sim part s).toolEmbs = s.toolEmbs
    ∧ (run_leiden sim part s).wfEmbs = s.wfEmbs
    ∧ (run_leiden sim part s).wfRows = s.wfRows
    ∧ (run_leiden sim part s).ioRows = s.ioRows
    ∧ (∀ p ∈ s.toolCommunityId,
        (∀ q ∈ part (build_weighted_graph sim s.toolEmbs s.wfRows s.ioRows) 1, q.1 ≠ p.1) →
        p ∈ (run_leiden sim part s).toolCommunityId) := by
  have hrl : ∃ tc, run_leiden sim part s = { s with toolCommunityId := tc } := by
    unfold run_leiden
    by_cases h : (build_weighted_graph sim s.toolEmbs s.wfRows s.ioRows).nodes = []
    · rw [if_pos h]
      exact ⟨s.toolCommunityId, rfl⟩
    · rw [if_neg h]
      exact foldl_leidenStep_only_toolCommunityId _ s
  obtain ⟨tc, htc⟩ := hrl
  refine ⟨rfl, by rw [htc], by rw [htc], by rw [htc], by rw [htc], by rw [htc], by rw [htc],
    by rw [htc], by rw [htc], by rw [htc], by rw [htc], by rw [htc], by rw [htc],
    by rw [htc], by rw [htc], ?_⟩
  intro p hp hq
  unfold run_leiden
  by_cases h : (build_weighted_graph sim s.toolEmbs s.wfRows s.ioRows).nodes = []
  · rw [if_pos h]
    exact hp
  · rw [if_neg h]
    exact mem_foldl_leidenStep _ s hp hq

set_option maxRecDepth 1000000 in
unseal Rat.mul Rat.add Rat.inv in
/-- Witness for C7 at a concrete input: on a store with stale state the flat
detector leaves the stale `Community` node list and workflow membership in
place, and the `communityId` of the unpartitioned tool `ghost` survives. -/
theorem c7_build_pipeline_flat_detector_witness :
    (run_leiden simW partFix
        { storeFix with toolCommunityId := [("a", 7), ("ghost", 3)] }).communityNodes
      = storeFix.communityNodes
    ∧ (run_leiden simW partFix
        { storeFix with toolCommunityId := [("a", 7), ("ghost", 3)] }).wfCommunityId
      = storeFix.wfCommunityId
    ∧ ("ghost", 3) ∈ (run_leiden simW partFix
        { storeFix with toolCommunityId := [("a", 7), ("ghost", 3)] }).toolCommunityId := by
  have h := c7_build_pipeline_flat_detector simW partFix
    { storeFix with toolCommunityId := [("a", 7), ("ghost", 3)] }
  exact ⟨h.2.1, h.2.2.2.2.2.2.1,
    h.2.2.2.2.2.2.2.2.2.2.2.2.2.2.2 ("ghost", 3) (by decide) (by decide)⟩

end GalaxyGraphRAG
